import Mathlib

/-!
# MVMO: a shallow embedding of `src/MVMO.cpp`

The optimizer state of the C++ class `MVMO` is the structure `MVMO K`.
Modelling conventions:

* `double` values are elements of an ordered field `K` with exact arithmetic
  (`K = ℚ` evaluates, `K = ℝ` is the real semantics); rounding, NaN and
  negative infinity are outside the model.  `_best_y` lives in `WithTop K`,
  where `⊤` is the `+infinity` an optimizer starts with.
* `size_t` values are natural numbers (the sizes met here stay far below `2^64`).
  A `double` is converted to `size_t` by truncation (`toSize`).
* Eigen vectors are lists, a matrix is the list of its columns.
* Behaviour of the C++ standard library and of the random engine is collected
  in `Extern`: `exp`, `log`, `std::nth_element`, and the successive values
  produced by `_rand01()`, by `i_distr(_engine)` and by `setRandom()`.
  The state carries cursors into the two engine streams.
* A failed `assert`, an out-of-range access or an exhausted loop budget makes
  an operation return `none`.
* The overload `optimize(guess)` and the debug output are not modelled.

The definitions come first: the embedding, the predicates used in the
statements, executable example instances, and the definitions that follow the
wording of the specification where the code is compared with it
(`m_as_specified`, `noeq_as_specified`, `mean_var_as_specified`). The theorems
follow.
-/

/-- The behaviour of library code called by `MVMO.cpp`. -/
structure Extern (K : Type) where
  /-- The function `exp` of the C++ library. -/
  exp : K → K
  /-- The function `log` of the C++ library. -/
  log : K → K
  /-- The result of `std::nth_element(first, first + n, last, comp)` on the index vector. -/
  nth_element : List ℕ → ℕ → (ℕ → ℕ → Bool) → List ℕ
  /-- The successive values returned by `uniform_real_distribution<double>(0, 1)(_engine)`. -/
  rand01 : ℕ → K
  /-- The successive raw values behind `i_distr(_engine)`; a draw from `[0, n-1]` is the value modulo `n`. -/
  i_distr : ℕ → ℕ
  /-- The entries written by Eigen `setRandom()`, indexed by row and column. -/
  setRandom : ℕ → ℕ → K
  /-- The number of engine draws a single `_pick_from_seq` call may consume. -/
  pick_fuel : ℕ

/-- The fields of the C++ class `MVMO`, with the cursors of the random engine. -/
structure MVMO (K : Type) where
  _dim : ℕ
  _lb : List K
  _ub : List K
  _f : List K → K
  _max_eval : ℕ
  _num_init : ℕ
  _archive_size : ℕ
  _fs_init : K
  _fs_final : K
  _m_init : ℕ
  _m_final : ℕ
  _delta_d0 : K
  _eval_counter : ℕ
  _best_x : List K
  _best_y : WithTop K
  _dbx : List (List K)
  _dby : List K
  _archive_x : List (List K)
  _archive_mean : List K
  _archive_s : List K
  _archive_d : List K
  _archive_s1 : List K
  _archive_s2 : List K
  _fshape : K
  /-- The number of `_rand01()` values consumed so far. -/
  rng : ℕ
  /-- The number of `i_distr(_engine)` values consumed so far. -/
  irng : ℕ

namespace MVMO

variable {K : Type} [LinearOrderedField K] [FloorRing K]

/-- Conversion of a `double` to `size_t`: truncation (the C++ conversion of a
negative value is undefined; the model gives 0). -/
def toSize (x : K) : ℕ := ⌊x⌋₊

/-- The constant `numeric_limits<double>::epsilon()`. -/
def epsilon : K := 1 / 2 ^ 52

/-- Eigen `cwiseProduct`. -/
def cwiseProduct (a b : List K) : List K := List.zipWith (fun p q => p * q) a b

/-- Eigen `cwiseInverse`. -/
def cwiseInverse (a : List K) : List K := a.map (fun p => p⁻¹)

/-- Eigen vector sum. -/
def vadd (a b : List K) : List K := List.zipWith (fun p q => p + q) a b

/-- Eigen vector difference. -/
def vsub (a b : List K) : List K := List.zipWith (fun p q => p - q) a b

/-- Eigen scalar multiple. -/
def smul (c : K) (a : List K) : List K := a.map (fun p => c * p)

/-- `MVMO::_scale` (lines 274-279): from `[lb, ub]` to `[0, 1]`. -/
def _scale (S : MVMO K) (x : List K) : List K :=
  let a := cwiseInverse (vsub S._ub S._lb)
  let b := smul (-1) (cwiseProduct S._lb a)
  vadd (cwiseProduct a x) b

/-- `MVMO::_scale_back` (lines 280-285): from `[0, 1]` to `[lb, ub]`. -/
def _scale_back (S : MVMO K) (x : List K) : List K :=
  let b := S._lb
  let a := vsub S._ub S._lb
  vadd (cwiseProduct a x) b

/-- `MVMO::_default_setting` (lines 17-28). -/
def _default_setting (S : MVMO K) : MVMO K :=
  { S with
    _max_eval := S._dim * 50
    _num_init := S._dim * 5
    _archive_size := 5
    _fs_init := 0.5
    _fs_final := 20
    _m_init := toSize (max (1 : K) ((S._dim : K) / 6))
    _m_final := toSize (max (1 : K) ((S._dim : K) / 2))
    _delta_d0 := 0.25 }

/-- Modelled from the spec: the initial values of the members that the
constructor body does not assign (they are set in the class declaration of
`MVMO.h`, absent from the sources): evaluation counter 0, best value
`+infinity`, no best point. The remaining fields are overwritten by
`_default_setting` and `_init_archive` before they are read. -/
def declared (f : List K → K) (lb ub : List K) : MVMO K :=
  { _dim := lb.length, _lb := lb, _ub := ub, _f := f
    _max_eval := 0, _num_init := 0, _archive_size := 0
    _fs_init := 0, _fs_final := 0, _m_init := 0, _m_final := 0, _delta_d0 := 0
    _eval_counter := 0, _best_x := [], _best_y := ⊤
    _dbx := [], _dby := []
    _archive_x := [], _archive_mean := [], _archive_s := [], _archive_d := []
    _archive_s1 := [], _archive_s2 := [], _fshape := 0
    rng := 0, irng := 0 }

/-- The test `(lb.array() < ub.array()).all()` of the constructor. -/
def all_lt : List K → List K → Bool
  | l :: ls, u :: us => decide (l < u) && all_lt ls us
  | _, _ => true

/-- The constructor `MVMO::MVMO` (lines 8-16); `none` is a failed assertion. -/
def construct (f : List K → K) (lb ub : List K) : Option (MVMO K) :=
  if lb.length = ub.length then
    if all_lt lb ub then
      some (_default_setting { declared f lb ub with _dbx := [], _dby := [] })
    else none
  else none

/-- `MVMO::_init_archive` (lines 29-37); unassigned matrix entries are 0. -/
def _init_archive (S : MVMO K) : MVMO K :=
  { S with
    _archive_x := List.replicate S._archive_size (List.replicate S._dim 0)
    _archive_mean := List.replicate S._dim 0
    _archive_s := List.replicate S._dim 0
    _archive_d := List.replicate S._dim 1
    _archive_s1 := List.replicate S._dim 0
    _archive_s2 := List.replicate S._dim 0 }

/-- `MVMO::_run_func` (lines 40-56): the new state and the returned value. -/
def _run_func (S : MVMO K) (x : List K) : MVMO K × K :=
  let S1 := { S with _eval_counter := S._eval_counter + 1 }
  let sx := S1._scale_back x
  let y : K := S1._f sx
  let S2 := if (y : WithTop K) < S1._best_y then { S1 with _best_x := sx, _best_y := (y : WithTop K) } else S1
  ({ S2 with _dbx := S2._dbx ++ [x], _dby := S2._dby ++ [y] }, y)

/-- `MVMO::_run_func_batch` (lines 57-63): the new state and the vector of values. -/
def _run_func_batch (S : MVMO K) : List (List K) → MVMO K × List K
  | [] => (S, [])
  | x :: xs =>
    let r := S._run_func x
    let rs := _run_func_batch r.1 xs
    (rs.1, r.2 :: rs.2)

/-- `MVMO::_rand01` (lines 265-268): the next engine value and the advanced state. -/
def _rand01 (O : Extern K) (S : MVMO K) : K × MVMO K :=
  (O.rand01 S.rng, { S with rng := S.rng + 1 })

/-- `MVMO::_hfunc` (lines 269-272). -/
def _hfunc (O : Extern K) (xbar s1 s2 x : K) : K :=
  xbar * (1 - O.exp (-1 * x * s1)) + (1 - xbar) * O.exp (-1 * (1 - x) * s2)

/-- `MVMO::_fs` (lines 172-182): draws twice and stores the fitness-shaping factor. -/
def _fs (O : Extern K) (S : MVMO K) : MVMO K :=
  let alpha : K := (S._eval_counter : K) / (S._max_eval : K)
  let fs_star : K := S._fs_init + alpha ^ 1 * (S._fs_final - S._fs_init)
  let r1 : K × MVMO K := S._rand01 O
  if r1.1 > (0.5 : K) then
    let r2 : K × MVMO K := r1.2._rand01 O
    { r2.2 with _fshape := fs_star * (1 + r2.1) }
  else
    let r2 : K × MVMO K := r1.2._rand01 O
    { r2.2 with _fshape := 1.0 + fs_star * (1 - r2.1) * 0.25 }

/-- `MVMO::_m` (lines 184-192): the mutation count and the advanced state.
Both `mstar` and `m` are `size_t` variables, so both values are truncated. -/
def _m (O : Extern K) (S : MVMO K) : ℕ × MVMO K :=
  let alpha : K := (S._eval_counter : K) / (S._max_eval : K)
  let minit : K := (S._m_init : K)
  let mfinal : K := (S._m_final : K)
  let mstar : ℕ := toSize (minit - alpha ^ 1 * (minit - mfinal))
  let r := S._rand01 O
  let m : ℕ := toSize (mfinal + r.1 * ((mstar : K) - mfinal))
  (m, r.2)

/-- `MVMO::_seq_idx` (lines 193-199). -/
def _seq_idx (n : ℕ) : List ℕ := List.range n

/-- The de-duplication loop of `_mean_var_noeq` (lines 294-298): `prev` is `v[i-1]`. -/
def noeq_loop : K → List K → List K
  | _, [] => []
  | prev, x :: xs =>
    if |x - prev| > epsilon then x :: noeq_loop x xs else noeq_loop x xs

/-- `MVMO::_mean_var_noeq` (lines 286-314): mean and variance; `none` when the
row is empty (the read of `v[0]` is then out of range). -/
def _mean_var_noeq (xs : List K) : Option (K × K) :=
  match xs.insertionSort (fun p q => p ≤ q) with
  | [] => none
  | v0 :: vs =>
    let vnoeq := v0 :: noeq_loop v0 vs
    if vnoeq.length = 1 then some (v0, 0)
    else
      let mean : K := vnoeq.sum / (vnoeq.length : K)
      let var : K := (vnoeq.map (fun x => (x - mean) ^ 2)).sum / (vnoeq.length : K)
      some (mean, var)

/-- The body of the loop over the dimensions in `_archive` once `_mean_var_noeq`
has returned `mean_var` (lines 226-251). -/
def archive_stat (O : Extern K) (fs : K) (S : MVMO K) (i : ℕ) (mean_var : K × K) : MVMO K :=
  let mean := mean_var.1
  let var := mean_var.2
  let s : K := if var < epsilon then S._archive_s.getD i 0 else -1 * O.log var * fs
  let S1 : MVMO K := { S with _archive_mean := S._archive_mean.set i mean, _archive_s := S._archive_s.set i s }
  let r : K × K × MVMO K :=
    if s > 0 then
      let r1 : K × MVMO K := S1._rand01 O
      let delta_d : K := (1 + S1._delta_d0) + 2 * S1._delta_d0 * (r1.1 - 0.5)
      let d : K := r1.2._archive_d.getD i 0
      let S2 : MVMO K := { r1.2 with _archive_d := r1.2._archive_d.set i (if s > d then d * delta_d else d / delta_d) }
      let r2 : K × MVMO K := S2._rand01 O
      if r2.1 < (0.5 : K) then (s, S2._archive_d.getD i 0, r2.2) else (S2._archive_d.getD i 0, s, r2.2)
    else (s, s, S1)
  let S3 := r.2.2
  { S3 with
    _archive_s1 := S3._archive_s1.set i (if S3._best_y ≠ ⊤ then r.1 else 0)
    _archive_s2 := S3._archive_s2.set i (if S3._best_y ≠ ⊤ then r.2.1 else 0) }

/-- The body of the loop over the dimensions in `_archive` (lines 222-252). -/
def archive_dim (O : Extern K) (fs : K) (S : MVMO K) (i : ℕ) : Option (MVMO K) :=
  let vars := S._archive_x.map (fun col => col.getD i 0)
  (_mean_var_noeq vars).map (archive_stat O fs S i)

/-- The index vector of `_archive` after `std::nth_element` (lines 213-216). -/
def archive_select (O : Extern K) (S : MVMO K) : List ℕ :=
  O.nth_element (_seq_idx S._eval_counter) S._archive_size
    (fun i1 i2 => decide (S._dby.getD i1 0 < S._dby.getD i2 0))

/-- The copy of the selected columns into `_archive_x` (lines 217-218). -/
def archive_copy (O : Extern K) (S : MVMO K) : MVMO K :=
  let idxs := archive_select O S
  let ax := (List.range S._archive_size).foldl
    (fun (m : List (List K)) i => m.set i (S._dbx.getD (idxs.getD i 0) [])) S._archive_x
  { S with _archive_x := ax }

/-- The statistics part of `_archive` (lines 220-252): `_fs`, then the loop
over the dimensions. -/
def archive_stats (O : Extern K) (S : MVMO K) : Option (MVMO K) :=
  let S1 := _fs O S
  let fs := S1._fshape
  (List.range S1._dim).foldlM (archive_dim O fs) S1

/-- `MVMO::_archive` (lines 209-253); `none` when the assertion fails or the
archive is larger than the history. -/
def _archive (O : Extern K) (S : MVMO K) : Option (MVMO K) :=
  if S._eval_counter = S._dbx.length then
    if S._archive_size ≤ (_seq_idx S._eval_counter).length then
      archive_stats O (archive_copy O S)
    else none
  else none

/-- Insertion into the ordered `std::set<size_t>`. -/
def set_insert (x : ℕ) (s : List ℕ) : List ℕ :=
  if x ∈ s then s else s.orderedInsert (fun p q => p ≤ q) x

/-- The `while` loop of `_pick_from_seq` (lines 259-260); `c` is the engine cursor. -/
def pick_loop (O : Extern K) (n m : ℕ) : ℕ → ℕ → List ℕ → Option (List ℕ × ℕ)
  | 0, c, picked => if picked.length < m then none else some (picked, c)
  | fuel + 1, c, picked =>
    if picked.length < m then pick_loop O n m fuel (c + 1) (set_insert (O.i_distr c % n) picked)
    else some (picked, c)

/-- `MVMO::_pick_from_seq` (lines 254-264): the picked indices in ascending order. -/
def _pick_from_seq (O : Extern K) (S : MVMO K) (n m : ℕ) : Option (List ℕ × MVMO K) :=
  if m ≤ n then
    (pick_loop O n m O.pick_fuel S.irng []).map (fun r => (r.1, { S with irng := r.2 }))
  else none

/-- The value `hx + (1 - h1 + h0) * x_star - h0` of line 141. -/
def mapped (O : Extern K) (xbar s1 s2 x_star : K) : K :=
  let hx := _hfunc O xbar s1 s2 x_star
  let h0 := _hfunc O xbar s1 s2 0
  let h1 := _hfunc O xbar s1 s2 1
  hx + (1.0 - h1 + h0) * x_star - h0

/-- The body of the loop over `dim_to_mutate` in `optimize_one_step` (lines 134-147). -/
def mutate (O : Extern K) (acc : List K × MVMO K) (idx : ℕ) : List K × MVMO K :=
  let new_x := acc.1
  let S := acc.2
  let xbar := S._archive_mean.getD idx 0
  let s1 := S._archive_s1.getD idx 0
  let s2 := S._archive_s2.getD idx 0
  let r := S._rand01 O
  let v := mapped O xbar s1 s2 r.1
  if v > (0.98 : K) then
    let r2 : K × MVMO K := r.2._rand01 O
    if r2.1 < (0.2 : K) then (new_x.set idx 1.0, r2.2) else (new_x.set idx v, r2.2)
  else if v < (0.02 : K) then
    let r2 : K × MVMO K := r.2._rand01 O
    if r2.1 < (0.2 : K) then (new_x.set idx 0.0, r2.2) else (new_x.set idx v, r2.2)
  else (new_x.set idx v, r.2)

/-- `MVMO::optimize_one_step` (lines 116-171). -/
def optimize_one_step (O : Extern K) (S : MVMO K) : Option (MVMO K) :=
  let seeded : Option (MVMO K) :=
    if S._best_y = ⊤ then
      match S._dbx with
      | [] => none
      | c :: _ => some { S with _best_x := S._scale_back c }
    else some S
  seeded.bind fun S1 =>
  (_archive O S1).bind fun S2 =>
  let r := _m O S2
  (_pick_from_seq O r.2 r.2._dim r.1).bind fun p =>
  let new_x := p.2._scale p.2._best_x
  let res := p.1.foldl (mutate O) (new_x, p.2)
  some (res.2._run_func res.1).1

/-- `MVMO::_initialize()` (lines 92-100). -/
def _initialize (O : Extern K) (S : MVMO K) : MVMO K :=
  let S1 := if S._num_init < S._archive_size then { S with _num_init := S._archive_size } else S
  let init_x := (List.range S1._num_init).map fun j =>
    (List.range S1._dim).map fun i => 0.5 * (O.setRandom i j + 1.0)
  (S1._run_func_batch init_x).1

/-- The `while` loop of `optimize` (lines 73-76); `none` when a step aborts or
the loop is still running after `fuel` iterations. -/
def optimize_loop (O : Extern K) : ℕ → MVMO K → Option (MVMO K)
  | 0, S => if S._eval_counter < S._max_eval then none else some S
  | fuel + 1, S =>
    if S._eval_counter < S._max_eval then (optimize_one_step O S).bind (optimize_loop O fuel)
    else some S

/-- `MVMO::optimize()` (lines 64-77). -/
def optimize (O : Extern K) (fuel : ℕ) (S : MVMO K) : Option (MVMO K) :=
  optimize_loop O fuel ( _initialize O (_init_archive S))

/-- The members that only `_run_func`, `_init_archive`, `_initialize` and the
seeding of `_best_x` change: `Frame S T` says that `T` agrees with `S` on all
of them and that the archive matrix has kept its number of columns. -/
structure Frame (S T : MVMO K) : Prop where
  dim : T._dim = S._dim
  lb : T._lb = S._lb
  ub : T._ub = S._ub
  f : T._f = S._f
  max_eval : T._max_eval = S._max_eval
  archive_size : T._archive_size = S._archive_size
  m_init : T._m_init = S._m_init
  m_final : T._m_final = S._m_final
  eval_counter : T._eval_counter = S._eval_counter
  best_x : T._best_x = S._best_x
  best_y : T._best_y = S._best_y
  dbx : T._dbx = S._dbx
  dby : T._dby = S._dby
  archive_x : T._archive_x.length = S._archive_x.length

/-- The states reached from `S0` by `n` evaluations, each performed by a call
of `_run_func` or by a completed `optimize_one_step`. -/
inductive Reach (O : Extern K) (S0 : MVMO K) : ℕ → MVMO K → Prop
  | init : Reach O S0 0 S0
  | run (n : ℕ) (S : MVMO K) (x : List K) : Reach O S0 n S → Reach O S0 (n + 1) (S._run_func x).1
  | step (n : ℕ) (S S' : MVMO K) : Reach O S0 n S → optimize_one_step O S = some S' →
      Reach O S0 (n + 1) S'

/-- The states at the head of the `while` loop of `optimize`, in order. -/
def optimize_trace (O : Extern K) : ℕ → MVMO K → List (MVMO K)
  | 0, S => [S]
  | fuel + 1, S =>
    if S._eval_counter < S._max_eval then
      match optimize_one_step O S with
      | none => [S]
      | some S' => S :: optimize_trace O fuel S'
    else [S]

/-- The best tracker agrees with the history: `_best_y` is the least recorded
value and `_best_x` is the image of the earliest record that attains it. -/
def BestInv (S : MVMO K) : Prop :=
  S._dbx.length = S._dby.length ∧ S._best_y = S._dby.minimum ∧
  (S._dby ≠ [] → ∃ (i : ℕ) (c : List K) (v : K),
    S._dbx[i]? = some c ∧ S._dby[i]? = some v ∧ (v : WithTop K) = S._best_y ∧
    (∀ (j : ℕ) (w : K), j < i → S._dby[j]? = some w → S._best_y < (w : WithTop K)) ∧
    S._best_x = S._scale_back c)

/-- The contract of `std::nth_element` for a comparison by keys: the result
is a rearrangement of the input, and no element from position `n` on is less
than an element before position `n`. -/
def NthElementSpec (O : Extern K) : Prop :=
  ∀ (y : ℕ → K) (l : List ℕ) (n : ℕ), n ≤ l.length →
    (O.nth_element l n (fun i1 i2 => decide (y i1 < y i2))).Perm l ∧
    ∀ a ∈ (O.nth_element l n (fun i1 i2 => decide (y i1 < y i2))).take n,
      ∀ b ∈ (O.nth_element l n (fun i1 i2 => decide (y i1 < y i2))).drop n, ¬ y b < y a

/-- The values of `_rand01()` lie in the unit interval. -/
def Rand01Spec (O : Extern K) : Prop := ∀ n : ℕ, 0 ≤ O.rand01 n ∧ O.rand01 n ≤ 1

/-- From every position of the engine, each index below `n` is drawn within
the next `pick_fuel` draws. -/
def FairIndexDraws (O : Extern K) (n : ℕ) : Prop :=
  ∀ (c r : ℕ), r < n → ∃ j, j < O.pick_fuel ∧ O.i_distr (c + j) % n = r

/-- What the loop of `optimize` maintains: the history has as many records as
evaluations were counted, the archive is non-empty, not larger than the
history and allocated, and both mutation-count settings lie between 1 and the
dimension. -/
def RunInv (S : MVMO K) : Prop :=
  S._eval_counter = S._dbx.length ∧ S._dby.length = S._dbx.length ∧
  1 ≤ S._archive_size ∧ S._archive_size ≤ S._eval_counter ∧
  S._archive_x.length = S._archive_size ∧
  (1 ≤ S._m_init ∧ S._m_init ≤ S._dim) ∧ (1 ≤ S._m_final ∧ S._m_final ≤ S._dim)

/-- An executable `std::nth_element`: the whole index vector sorted by `comp`. -/
def demo_nth_element (l : List ℕ) (_n : ℕ) (comp : ℕ → ℕ → Bool) : List ℕ :=
  l.insertionSort (fun a b => comp b a = false)

/-- An executable instance of the library behaviour over the rationals (with
rational stand-ins for `exp` and `log`). -/
def demo_extern : Extern ℚ :=
  { exp := fun x => if x < 0 then 1 / (1 - x) else 1 + x
    log := fun x => x - 1
    nth_element := demo_nth_element
    rand01 := fun n => ((n % 7 : ℕ) : ℚ) / 7
    i_distr := fun n => n
    setRandom := fun i j => (((i + 3 * j) % 5 : ℕ) : ℚ) / 5
    pick_fuel := 8 }

/-- The objective of the end-to-end scenario of the specification. -/
def sphere (x : List ℚ) : ℚ := (x.map (fun t => t * t)).sum

/-- A freshly constructed optimizer for `sphere` on `[-5, 5]^2`. -/
def demo_fresh : MVMO ℚ := _default_setting (declared sphere [-5, -5] [5, 5])

/-- The optimizer `demo_fresh` after `_init_archive` and `_initialize`. -/
def demo_ready : MVMO ℚ := _initialize demo_extern (_init_archive demo_fresh)

/-- The mutation count as the specification words it: the interpolated target
`m_star` is a real number, only the final value is truncated. -/
def m_as_specified (m_init m_final : ℕ) (progress u : K) : ℕ :=
  let m_star : K := (m_init : K) - progress * ((m_init : K) - (m_final : K))
  toSize ((m_final : K) + u * (m_star - (m_final : K)))

/-- A freshly constructed optimizer for `sphere` on `[-5, 5]^6`. -/
def demo6_fresh : MVMO ℚ := _default_setting (declared sphere [-5, -5, -5, -5, -5, -5] [5, 5, 5, 5, 5, 5])

/-- The optimizer `demo6_fresh` at a quarter of its budget, four draws into the engine. -/
def demo6_quarter : MVMO ℚ := { demo6_fresh with _eval_counter := 75, rng := 4 }

/-- The de-duplication as the specification words it: going up the sorted
values, a value is removed when it is within machine epsilon of the last
retained value. -/
def noeq_as_specified : K → List K → List K
  | _, [] => []
  | last, x :: xs =>
    if |x - last| > epsilon then x :: noeq_as_specified x xs else noeq_as_specified last xs

/-- Mean and variance of the de-duplicated row as the specification words it. -/
def mean_var_as_specified (xs : List K) : Option (K × K) :=
  match xs.insertionSort (fun p q => p ≤ q) with
  | [] => none
  | v0 :: vs =>
    let kept := v0 :: noeq_as_specified v0 vs
    if kept.length = 1 then some (v0, 0)
    else
      let mean : K := kept.sum / (kept.length : K)
      some (mean, (kept.map (fun x => (x - mean) ^ 2)).sum / (kept.length : K))

/-- A row of three values, each within machine epsilon of the next, the first
and the last further apart. -/
def chain_row : List ℚ := [0, 3 / 5 * epsilon, 6 / 5 * epsilon]

/-- The shape value `s` that `_archive` computes for dimension `i` (line 228). -/
def shape_value (O : Extern K) (fs : K) (S : MVMO K) (i : ℕ) (mean_var : K × K) : K :=
  if mean_var.2 < epsilon then S._archive_s.getD i 0 else -1 * O.log mean_var.2 * fs

/-- The jitter `delta_d` drawn in `_archive` (line 234). -/
def jitter (O : Extern K) (S : MVMO K) : K :=
  (1 + S._delta_d0) + 2 * S._delta_d0 * (O.rand01 S.rng - 0.5)

/-- The dynamic-range value of dimension `i` after the update of lines 235-238. -/
def range_value (O : Extern K) (S : MVMO K) (i : ℕ) (s : K) : K :=
  if s > S._archive_d.getD i 0 then S._archive_d.getD i 0 * jitter O S
  else S._archive_d.getD i 0 / jitter O S

/-- The per-dimension statistics of `T` at index `i` are those of `S`, and
the statistics vectors, the best value and the jitter constant are unchanged
in size and value. -/
structure SameAt (i : ℕ) (S T : MVMO K) : Prop where
  mean : T._archive_mean[i]? = S._archive_mean[i]?
  s : T._archive_s[i]? = S._archive_s[i]?
  d : T._archive_d[i]? = S._archive_d[i]?
  s1 : T._archive_s1[i]? = S._archive_s1[i]?
  s2 : T._archive_s2[i]? = S._archive_s2[i]?
  len_mean : T._archive_mean.length = S._archive_mean.length
  len_s : T._archive_s.length = S._archive_s.length
  len_d : T._archive_d.length = S._archive_d.length
  len_s1 : T._archive_s1.length = S._archive_s1.length
  len_s2 : T._archive_s2.length = S._archive_s2.length
  best_y : T._best_y = S._best_y
  delta_d0 : T._delta_d0 = S._delta_d0

/-- A library whose `setRandom` writes the same entry everywhere. -/
def flat_extern : Extern ℚ := { demo_extern with setRandom := fun _ _ => 0 }

/-- The optimizer `demo_fresh` after an initial batch of ten equal points. -/
def flat_ready : MVMO ℚ := _initialize flat_extern (_init_archive demo_fresh)

/-! # Theorems -/

set_option linter.unusedSectionVars false

theorem Frame.refl (S : MVMO K) : Frame S S := by constructor <;> rfl

theorem Frame.trans {S T U : MVMO K} (h1 : Frame S T) (h2 : Frame T U) : Frame S U := by
  constructor
  · exact h2.dim.trans h1.dim
  · exact h2.lb.trans h1.lb
  · exact h2.ub.trans h1.ub
  · exact h2.f.trans h1.f
  · exact h2.max_eval.trans h1.max_eval
  · exact h2.archive_size.trans h1.archive_size
  · exact h2.m_init.trans h1.m_init
  · exact h2.m_final.trans h1.m_final
  · exact h2.eval_counter.trans h1.eval_counter
  · exact h2.best_x.trans h1.best_x
  · exact h2.best_y.trans h1.best_y
  · exact h2.dbx.trans h1.dbx
  · exact h2.dby.trans h1.dby
  · exact h2.archive_x.trans h1.archive_x

theorem foldl_set_length {α : Type} (g : ℕ → α) :
    ∀ (l : List ℕ) (m : List α), (l.foldl (fun (m : List α) i => m.set i (g i)) m).length = m.length := by
  intro l
  induction l with
  | nil => intro m; rfl
  | cons a l ih => intro m; simp only [List.foldl_cons, ih, List.length_set]

theorem rand01_frame (O : Extern K) (S : MVMO K) : Frame S (S._rand01 O).2 := by
  constructor <;> rfl

theorem fs_frame (O : Extern K) (S : MVMO K) : Frame S (_fs O S) := by
  unfold _fs
  lift_lets
  intro alpha fs_star r1 r2
  have h2 : Frame S r2.2 := (rand01_frame O S).trans (rand01_frame O _)
  split_ifs
  · exact h2.trans (by constructor <;> rfl)
  · exact h2.trans (by constructor <;> rfl)

theorem m_frame (O : Extern K) (S : MVMO K) : Frame S (_m O S).2 := by
  constructor <;> rfl

theorem archive_stat_frame (O : Extern K) (fs : K) (S : MVMO K) (i : ℕ) (mv : K × K) :
    Frame S (archive_stat O fs S i mv) := by
  unfold archive_stat
  lift_lets
  intro mean var s S1 r1 delta_d d src S2 r2 r S3
  have h1 : Frame S S1 := by constructor <;> rfl
  have h2 : Frame S1 S2 := (rand01_frame O S1).trans (by constructor <;> rfl : Frame src S2)
  have h3 : Frame S2 r2.2 := rand01_frame O S2
  have hr : S3 = if s > 0 then r2.2 else S1 := by
    show r.2.2 = _
    simp only [r]
    split_ifs <;> rfl
  have h4 : Frame S S3 := by
    rw [hr]
    split_ifs
    · exact h1.trans (h2.trans h3)
    · exact h1
  exact h4.trans (by constructor <;> rfl)

theorem archive_dim_frame (O : Extern K) (fs : K) (S T : MVMO K) (i : ℕ)
    (h : archive_dim O fs S i = some T) : Frame S T := by
  unfold archive_dim at h
  simp only [Option.map_eq_some'] at h
  obtain ⟨mv, _, hT⟩ := h
  rw [← hT]
  exact archive_stat_frame O fs S i mv

theorem foldlM_frame (g : MVMO K → ℕ → Option (MVMO K))
    (hg : ∀ S T i, g S i = some T → Frame S T) :
    ∀ (l : List ℕ) (S T : MVMO K), l.foldlM g S = some T → Frame S T := by
  intro l
  induction l with
  | nil => intro S T h; simp at h; subst h; exact Frame.refl S
  | cons a l ih =>
    intro S T h
    simp only [List.foldlM_cons, Option.bind_eq_bind, Option.bind_eq_some] at h
    obtain ⟨U, hU, hT⟩ := h
    exact (hg S U a hU).trans (ih U T hT)

theorem archive_copy_frame (O : Extern K) (S : MVMO K) : Frame S (archive_copy O S) := by
  constructor
  any_goals rfl
  exact foldl_set_length _ _ _

theorem archive_stats_frame (O : Extern K) (S T : MVMO K) (h : archive_stats O S = some T) :
    Frame S T := by
  unfold archive_stats at h
  exact (fs_frame O S).trans (foldlM_frame _ (archive_dim_frame O _) _ _ _ h)

theorem archive_frame (O : Extern K) (S T : MVMO K) (h : _archive O S = some T) :
    Frame S T := by
  unfold _archive at h
  split_ifs at h
  exact (archive_copy_frame O S).trans (archive_stats_frame O _ T h)

theorem pick_frame (O : Extern K) (S : MVMO K) (n m : ℕ) (p : List ℕ × MVMO K)
    (h : _pick_from_seq O S n m = some p) : Frame S p.2 := by
  unfold _pick_from_seq at h
  split_ifs at h
  simp only [Option.map_eq_some'] at h
  obtain ⟨r, _, hp⟩ := h
  rw [← hp]
  constructor <;> rfl

theorem mutate_frame (O : Extern K) (acc : List K × MVMO K) (idx : ℕ) :
    Frame acc.2 (mutate O acc idx).2 := by
  unfold mutate
  lift_lets
  intro new_x S xbar s1 s2 r v r2
  have h1 : Frame S r.2 := rand01_frame O S
  have h2 : Frame S r2.2 := h1.trans (rand01_frame O _)
  split_ifs
  · exact h2
  · exact h2
  · exact h2
  · exact h2
  · exact h1

theorem mutate_foldl_frame (O : Extern K) :
    ∀ (l : List ℕ) (acc : List K × MVMO K), Frame acc.2 (l.foldl (mutate O) acc).2 := by
  intro l
  induction l with
  | nil => intro acc; exact Frame.refl _
  | cons a l ih =>
    intro acc
    simp only [List.foldl_cons]
    exact (mutate_frame O acc a).trans (ih _)

/-! ## The scaling layer -/

/-- C1: `_scale` and `_scale_back` are mutual inverses when `lb < ub` holds
in every coordinate. -/
theorem scale_round_trip (S : MVMO K) (x : List K)
    (hdim : S._lb.length = S._ub.length) (hx : x.length = S._lb.length)
    (hlt : ∀ (i : ℕ) (h1 : i < S._lb.length) (h2 : i < S._ub.length), S._lb[i] < S._ub[i]) :
    S._scale_back (S._scale x) = x ∧ S._scale (S._scale_back x) = x := by
  constructor
  · apply List.ext_getElem
    · simp [_scale_back, _scale, vadd, cwiseProduct, cwiseInverse, vsub, smul, hdim, hx]
    · intro i h1 h2
      have hi : i < S._lb.length := by rw [← hx]; exact h2
      have hi2 : i < S._ub.length := by rw [← hdim]; exact hi
      have hne : S._ub[i] - S._lb[i] ≠ 0 := sub_ne_zero.mpr (ne_of_gt (hlt i hi hi2))
      simp [_scale_back, _scale, vadd, cwiseProduct, cwiseInverse, vsub, smul]
      field_simp
  · apply List.ext_getElem
    · simp [_scale_back, _scale, vadd, cwiseProduct, cwiseInverse, vsub, smul, hdim, hx]
    · intro i h1 h2
      have hi : i < S._lb.length := by rw [← hx]; exact h2
      have hi2 : i < S._ub.length := by rw [← hdim]; exact hi
      have hne : S._ub[i] - S._lb[i] ≠ 0 := sub_ne_zero.mpr (ne_of_gt (hlt i hi hi2))
      simp [_scale_back, _scale, vadd, cwiseProduct, cwiseInverse, vsub, smul]
      field_simp

/-! ## The run-function and its effect on the history -/

theorem run_func_eval_counter (S : MVMO K) (x : List K) :
    (S._run_func x).1._eval_counter = S._eval_counter + 1 := by
  unfold _run_func
  simp only []
  split_ifs <;> rfl

theorem run_func_dbx (S : MVMO K) (x : List K) :
    (S._run_func x).1._dbx = S._dbx ++ [x] := by
  unfold _run_func
  simp only []
  split_ifs <;> rfl

theorem run_func_dby (S : MVMO K) (x : List K) :
    (S._run_func x).1._dby = S._dby ++ [S._f (S._scale_back x)] := by
  unfold _run_func
  simp only []
  split_ifs <;> rfl

theorem run_func_lb (S : MVMO K) (x : List K) : (S._run_func x).1._lb = S._lb := by
  unfold _run_func
  simp only []
  split_ifs <;> rfl

theorem run_func_ub (S : MVMO K) (x : List K) : (S._run_func x).1._ub = S._ub := by
  unfold _run_func
  simp only []
  split_ifs <;> rfl

theorem run_func_f (S : MVMO K) (x : List K) : (S._run_func x).1._f = S._f := by
  unfold _run_func
  simp only []
  split_ifs <;> rfl

theorem run_func_best_y (S : MVMO K) (x : List K) :
    (S._run_func x).1._best_y = min S._best_y ((S._f (S._scale_back x) : K) : WithTop K) := by
  unfold _run_func
  simp only []
  split_ifs with h
  · exact (min_eq_right (le_of_lt h)).symm
  · exact (min_eq_left (not_lt.mp h)).symm

theorem run_func_best_x (S : MVMO K) (x : List K) :
    (S._run_func x).1._best_x =
      if ((S._f (S._scale_back x) : K) : WithTop K) < S._best_y then S._scale_back x
      else S._best_x := by
  by_cases h : ((S._f (S._scale_back x) : K) : WithTop K) < S._best_y
  · rw [if_pos h]
    unfold _run_func
    simp only []
    rw [if_pos (by exact h)]
    rfl
  · rw [if_neg h]
    unfold _run_func
    simp only []
    rw [if_neg (by exact h)]

theorem scale_back_congr (S T : MVMO K) (h1 : T._lb = S._lb) (h2 : T._ub = S._ub) (x : List K) :
    T._scale_back x = S._scale_back x := by
  unfold _scale_back
  rw [h1, h2]

/-- The seeding of `_best_x` at the start of `optimize_one_step` (lines 118-119). -/
theorem step_unfold (O : Extern K) (S S' : MVMO K) (h : optimize_one_step O S = some S') :
    ∃ S1 S2 p,
      ((S._best_y ≠ ⊤ ∧ S1 = S) ∨
        (S._best_y = ⊤ ∧ ∃ c rest, S._dbx = c :: rest ∧
          S1 = { S with _best_x := S._scale_back c })) ∧
      _archive O S1 = some S2 ∧
      _pick_from_seq O (_m O S2).2 (_m O S2).2._dim (_m O S2).1 = some p ∧
      S' = ((p.1.foldl (mutate O) (p.2._scale p.2._best_x, p.2)).2._run_func
              (p.1.foldl (mutate O) (p.2._scale p.2._best_x, p.2)).1).1 := by
  unfold optimize_one_step at h
  simp only [Option.bind_eq_some] at h
  obtain ⟨S1, hS1, S2, hS2, p, hp, hS'⟩ := h
  refine ⟨S1, S2, p, ?_, hS2, hp, ?_⟩
  · by_cases hy : S._best_y = ⊤
    · right
      refine ⟨hy, ?_⟩
      rw [if_pos hy] at hS1
      cases hdbx : S._dbx with
      | nil => rw [hdbx] at hS1; exact absurd hS1 (by simp)
      | cons c rest =>
        rw [hdbx] at hS1
        simp only [Option.some.injEq] at hS1
        exact ⟨c, rest, rfl, hS1.symm⟩
    · left
      rw [if_neg hy] at hS1
      simp only [Option.some.injEq] at hS1
      exact ⟨hy, hS1.symm⟩
  · simp only [Option.some.injEq] at hS'
    exact hS'.symm

theorem step_frame (O : Extern K) (S S' : MVMO K) (h : optimize_one_step O S = some S') :
    ∃ S1 T x,
      ((S._best_y ≠ ⊤ ∧ S1 = S) ∨
        (S._best_y = ⊤ ∧ ∃ c rest, S._dbx = c :: rest ∧
          S1 = { S with _best_x := S._scale_back c })) ∧
      Frame S1 T ∧ S' = (T._run_func x).1 := by
  obtain ⟨S1, S2, p, hseed, harch, hpick, hS'⟩ := step_unfold O S S' h
  refine ⟨S1, _, _, hseed, ?_, hS'⟩
  have h1 := archive_frame O S1 S2 harch
  have h2 := m_frame O S2
  have h3 := pick_frame O _ _ _ p hpick
  have h4 := mutate_foldl_frame O p.1 (p.2._scale p.2._best_x, p.2)
  exact h1.trans (h2.trans (h3.trans h4))

theorem run_func_batch_best_y (xs : List (List K)) :
    ∀ S : MVMO K, (S._run_func_batch xs).1._best_y ≤ S._best_y := by
  induction xs with
  | nil => intro S; exact le_refl _
  | cons x xs ih =>
    intro S
    simp only [_run_func_batch]
    refine le_trans (ih _) ?_
    rw [run_func_best_y]
    exact min_le_left _ _

theorem step_best_y (O : Extern K) (S S' : MVMO K) (h : optimize_one_step O S = some S') :
    S'._best_y ≤ S._best_y := by
  obtain ⟨S1, T, x, hseed, hfr, hS'⟩ := step_frame O S S' h
  have h1 : S1._best_y = S._best_y := by
    rcases hseed with ⟨_, rfl⟩ | ⟨_, c, rest, _, rfl⟩ <;> rfl
  rw [hS', run_func_best_y, hfr.best_y, h1]
  exact min_le_left _ _

theorem loop_best_y (O : Extern K) :
    ∀ (fuel : ℕ) (S S' : MVMO K), optimize_loop O fuel S = some S' → S'._best_y ≤ S._best_y := by
  intro fuel
  induction fuel with
  | zero =>
    intro S S' h
    simp only [optimize_loop] at h
    split_ifs at h
    simp only [Option.some.injEq] at h
    rw [h]
  | succ n ih =>
    intro S S' h
    simp only [optimize_loop] at h
    split_ifs at h
    · simp only [Option.bind_eq_some] at h
      obtain ⟨U, hU, hS'⟩ := h
      exact le_trans (ih U S' hS') (step_best_y O S U hU)
    · simp only [Option.some.injEq] at h
      rw [h]

theorem trace_chain (O : Extern K) :
    ∀ (fuel : ℕ) (S : MVMO K),
      List.Chain' (fun a b : MVMO K => b._best_y ≤ a._best_y) (optimize_trace O fuel S) ∧
      (optimize_trace O fuel S).head? = some S := by
  intro fuel
  induction fuel with
  | zero => intro S; simp [optimize_trace]
  | succ n ih =>
    intro S
    simp only [optimize_trace]
    split_ifs
    · cases hstep : optimize_one_step O S with
      | none => simp
      | some U =>
        simp only [List.head?_cons, and_true]
        rw [List.chain'_cons']
        refine ⟨?_, (ih U).1⟩
        intro y hy
        rw [(ih U).2] at hy
        simp only [Option.mem_def, Option.some.injEq] at hy
        rw [← hy]
        exact step_best_y O S U hstep
    · simp

/-- C3: the best value never increases. -/
theorem best_value_never_increases (O : Extern K) :
    (∀ (S : MVMO K) (x : List K),
      (S._run_func x).1._best_y = min S._best_y ((S._f (S._scale_back x) : K) : WithTop K) ∧
      (S._run_func x).1._best_y ≤ S._best_y) ∧
    (∀ (S : MVMO K) (xs : List (List K)), (S._run_func_batch xs).1._best_y ≤ S._best_y) ∧
    (∀ S S' : MVMO K, optimize_one_step O S = some S' → S'._best_y ≤ S._best_y) ∧
    (∀ (fuel : ℕ) (S : MVMO K),
      List.Chain' (fun a b : MVMO K => b._best_y ≤ a._best_y) (optimize_trace O fuel S)) ∧
    (∀ (fuel : ℕ) (S S' : MVMO K), optimize O fuel S = some S' → S'._best_y ≤ S._best_y) := by
  refine ⟨?_, ?_, step_best_y O, ?_, ?_⟩
  · intro S x
    refine ⟨run_func_best_y S x, ?_⟩
    rw [run_func_best_y]
    exact min_le_left _ _
  · intro S xs
    exact run_func_batch_best_y xs S
  · intro fuel S
    exact (trace_chain O fuel S).1
  · intro fuel S S' h
    unfold optimize at h
    refine le_trans (loop_best_y O fuel _ S' h) ?_
    unfold _initialize
    simp only []
    refine le_trans (run_func_batch_best_y _ _) ?_
    split_ifs <;> exact le_refl _

/-! ## Reachable states -/

theorem reach_batch (O : Extern K) (S0 : MVMO K) (xs : List (List K)) :
    ∀ (n : ℕ) (S : MVMO K), Reach O S0 n S → Reach O S0 (n + xs.length) (S._run_func_batch xs).1 := by
  induction xs with
  | nil => intro n S h; simpa [_run_func_batch] using h
  | cons x xs ih =>
    intro n S h
    simp only [_run_func_batch, List.length_cons]
    have := ih (n + 1) _ (Reach.run n S x h)
    rwa [Nat.add_assoc, Nat.add_comm 1] at this

theorem reach_trace (O : Extern K) (S0 : MVMO K) :
    ∀ (fuel n : ℕ) (S : MVMO K), Reach O S0 n S →
      ∀ T ∈ optimize_trace O fuel S, ∃ k, Reach O S0 (n + k) T := by
  intro fuel
  induction fuel with
  | zero =>
    intro n S h T hT
    simp only [optimize_trace, List.mem_singleton] at hT
    exact ⟨0, by rw [hT]; exact h⟩
  | succ m ih =>
    intro n S h T hT
    simp only [optimize_trace] at hT
    split_ifs at hT
    · cases hstep : optimize_one_step O S with
      | none =>
        rw [hstep] at hT
        simp only [List.mem_singleton] at hT
        exact ⟨0, by rw [hT]; exact h⟩
      | some U =>
        rw [hstep] at hT
        simp only [List.mem_cons] at hT
        rcases hT with hT | hT
        · exact ⟨0, by rw [hT]; exact h⟩
        · obtain ⟨k, hk⟩ := ih (n + 1) U (Reach.step n S U h hstep) T hT
          exact ⟨1 + k, by rw [← Nat.add_assoc]; exact hk⟩
    · simp only [List.mem_singleton] at hT
      exact ⟨0, by rw [hT]; exact h⟩

theorem reach_loop (O : Extern K) (S0 : MVMO K) :
    ∀ (fuel n : ℕ) (S S' : MVMO K), Reach O S0 n S → optimize_loop O fuel S = some S' →
      ∃ k, Reach O S0 (n + k) S' := by
  intro fuel
  induction fuel with
  | zero =>
    intro n S S' h hl
    simp only [optimize_loop] at hl
    split_ifs at hl
    simp only [Option.some.injEq] at hl
    exact ⟨0, by rw [← hl]; exact h⟩
  | succ m ih =>
    intro n S S' h hl
    simp only [optimize_loop] at hl
    split_ifs at hl
    · simp only [Option.bind_eq_some] at hl
      obtain ⟨U, hU, hS'⟩ := hl
      obtain ⟨k, hk⟩ := ih (n + 1) U S' (Reach.step n S U h hU) hS'
      exact ⟨1 + k, by rw [← Nat.add_assoc]; exact hk⟩
    · simp only [Option.some.injEq] at hl
      exact ⟨0, by rw [← hl]; exact h⟩

/-- The state in which `_initialize` starts its batch of evaluations. -/
theorem initialize_eq (O : Extern K) (S : MVMO K) :
    ∃ (S1 : MVMO K) (xs : List (List K)), Frame S S1 ∧ xs.length = max S._num_init S._archive_size ∧
      S1._num_init = max S._num_init S._archive_size ∧
      _initialize O S = (S1._run_func_batch xs).1 := by
  unfold _initialize
  by_cases h : S._num_init < S._archive_size
  · refine ⟨{ S with _num_init := S._archive_size },
      (List.range S._archive_size).map fun j =>
        (List.range S._dim).map fun i => 0.5 * (O.setRandom i j + 1.0), ?_, ?_, ?_, ?_⟩
    · constructor <;> rfl
    · simp only [List.length_map, List.length_range]
      exact (max_eq_right (le_of_lt h)).symm
    · exact (max_eq_right (le_of_lt h)).symm
    · simp only [if_pos h]
  · refine ⟨S, (List.range S._num_init).map fun j =>
        (List.range S._dim).map fun i => 0.5 * (O.setRandom i j + 1.0), Frame.refl S, ?_, ?_, ?_⟩
    · simp only [List.length_map, List.length_range]
      exact (max_eq_left (not_lt.mp h)).symm
    · exact (max_eq_left (not_lt.mp h)).symm
    · simp only [if_neg h]

/-! ## The evaluation counter and the history -/

theorem reach_counter (O : Extern K) (S0 : MVMO K) (n : ℕ) (S : MVMO K)
    (h : Reach O S0 n S) :
    S._eval_counter = S0._eval_counter + n ∧ S._dbx.length = S0._dbx.length + n ∧
      S._dby.length = S0._dby.length + n := by
  induction h with
  | init => simp
  | run n S x _ ih =>
    rw [run_func_eval_counter, run_func_dbx, run_func_dby]
    simp only [List.length_append, List.length_singleton]
    omega
  | step n S S' _ hstep ih =>
    obtain ⟨S1, T, x, hseed, hfr, hS'⟩ := step_frame O S S' hstep
    have h1 : S1._eval_counter = S._eval_counter ∧ S1._dbx = S._dbx ∧ S1._dby = S._dby := by
      rcases hseed with ⟨_, rfl⟩ | ⟨_, c, rest, _, rfl⟩ <;> exact ⟨rfl, rfl, rfl⟩
    rw [hS', run_func_eval_counter, run_func_dbx, run_func_dby, hfr.eval_counter, hfr.dbx,
      hfr.dby, h1.1, h1.2.1, h1.2.2]
    simp only [List.length_append, List.length_singleton]
    omega

/-- C5: every evaluation appends exactly one record, so the number of records
equals the evaluation counter throughout a run. -/
theorem evaluation_count_invariant (O : Extern K) :
    (∀ (S : MVMO K) (x : List K),
      S._dbx.length = S._eval_counter → S._dby.length = S._eval_counter →
        (S._run_func x).1._eval_counter = S._eval_counter + 1 ∧
        (S._run_func x).1._dbx = S._dbx ++ [x] ∧
        (S._run_func x).1._dby = S._dby ++ [S._f (S._scale_back x)] ∧
        (S._run_func x).1._dbx.length = (S._run_func x).1._eval_counter ∧
        (S._run_func x).1._dby.length = (S._run_func x).1._eval_counter) ∧
    (∀ (S0 : MVMO K), S0._eval_counter = 0 → S0._dbx = [] → S0._dby = [] →
      (∀ (n : ℕ) (S : MVMO K), Reach O S0 n S →
        S._eval_counter = n ∧ S._dbx.length = S._eval_counter ∧
          S._dby.length = S._eval_counter) ∧
      (∀ (fuel : ℕ), ∀ T ∈ optimize_trace O fuel ( _initialize O (_init_archive S0)),
        T._eval_counter = T._dbx.length ∧ T._dby.length = T._eval_counter)) := by
  constructor
  · intro S x h1 h2
    rw [run_func_eval_counter, run_func_dbx, run_func_dby]
    simp only [List.length_append, List.length_singleton, h1, h2, and_self]
  · intro S0 hc hx hy
    constructor
    · intro n S h
      have := reach_counter O S0 n S h
      rw [hc, hx, hy] at this
      simp only [List.length_nil] at this
      omega
    · intro fuel T hT
      obtain ⟨S1, xs, hfr, _, _, hinit⟩ := initialize_eq O (_init_archive S0)
      have hr : Reach O S1 (0 + xs.length) ( _initialize O (_init_archive S0)) := by
        rw [hinit]
        exact reach_batch O S1 xs 0 S1 Reach.init
      obtain ⟨k, hk⟩ := reach_trace O S1 fuel _ _ hr T hT
      have := reach_counter O S1 _ T hk
      rw [hfr.eval_counter, hfr.dbx, hfr.dby] at this
      change T._eval_counter = S0._eval_counter + _ ∧ T._dbx.length = S0._dbx.length + _ ∧
        T._dby.length = S0._dby.length + _ at this
      rw [hc, hx, hy] at this
      simp only [List.length_nil] at this
      omega

/-! ## The best tracker -/

theorem bestInv_run_func (S : MVMO K) (x : List K) (h : BestInv S) :
    BestInv (S._run_func x).1 := by
  obtain ⟨hlen, hmin, hpt⟩ := h
  have hsb : ∀ c, (S._run_func x).1._scale_back c = S._scale_back c :=
    scale_back_congr S _ (run_func_lb S x) (run_func_ub S x)
  refine ⟨?_, ?_, ?_⟩
  · rw [run_func_dbx, run_func_dby]
    simp only [List.length_append, List.length_singleton, hlen]
  · rw [run_func_best_y, run_func_dby, List.minimum_concat, hmin]
  · intro _
    rw [run_func_best_y, run_func_best_x, run_func_dbx, run_func_dby]
    simp only [hsb]
    by_cases hy : ((S._f (S._scale_back x) : K) : WithTop K) < S._best_y
    · refine ⟨S._dby.length, x, S._f (S._scale_back x), ?_, ?_, ?_, ?_, ?_⟩
      · rw [← hlen]
        simp
      · simp
      · exact (min_eq_right (le_of_lt hy)).symm
      · intro j w hj hw
        rw [List.getElem?_append_left hj] at hw
        rw [min_eq_right (le_of_lt hy)]
        refine lt_of_lt_of_le hy ?_
        rw [hmin]
        exact List.minimum_le_of_mem' (List.getElem?_mem hw)
      · rw [if_pos hy]
    · have hne : S._dby ≠ [] := by
        intro hnil
        apply hy
        rw [hmin, hnil, List.minimum_nil]
        exact WithTop.coe_lt_top _
      obtain ⟨i, c, v, hc, hv, hvy, hearly, hbx⟩ := hpt hne
      have hi : i < S._dby.length := by
        rcases Nat.lt_or_ge i S._dby.length with h | h
        · exact h
        · rw [List.getElem?_eq_none h] at hv
          exact absurd hv (by simp)
      refine ⟨i, c, v, ?_, ?_, ?_, ?_, ?_⟩
      · rw [List.getElem?_append_left (by rw [hlen]; exact hi)]
        exact hc
      · rw [List.getElem?_append_left hi]
        exact hv
      · rw [min_eq_left (not_lt.mp hy)]
        exact hvy
      · intro j w hj hw
        rw [List.getElem?_append_left (lt_trans hj hi)] at hw
        rw [min_eq_left (not_lt.mp hy)]
        exact hearly j w hj hw
      · rw [if_neg hy]
        exact hbx

theorem bestInv_frame (S T : MVMO K) (hfr : Frame S T) (h : BestInv S) : BestInv T := by
  obtain ⟨hlen, hmin, hpt⟩ := h
  have hsb : ∀ c, T._scale_back c = S._scale_back c := scale_back_congr S T hfr.lb hfr.ub
  unfold BestInv
  rw [hfr.dbx, hfr.dby, hfr.best_y, hfr.best_x]
  simp only [hsb]
  exact ⟨hlen, hmin, hpt⟩

theorem bestInv_step (O : Extern K) (S S' : MVMO K) (hstep : optimize_one_step O S = some S')
    (h : BestInv S) : BestInv S' := by
  obtain ⟨S1, T, x, hseed, hfr, hS'⟩ := step_frame O S S' hstep
  have h1 : S1 = S := by
    rcases hseed with ⟨_, h1⟩ | ⟨htop, c, rest, hdbx, _⟩
    · exact h1
    · exfalso
      have hne : S._dby ≠ [] := by
        intro hnil
        have := h.1
        rw [hdbx, hnil] at this
        simp at this
      exact List.minimum_ne_top_of_ne_nil hne (h.2.1.symm.trans htop)
  rw [hS']
  apply bestInv_run_func
  rw [h1] at hfr
  exact bestInv_frame S T hfr h

theorem bestInv_reach (O : Extern K) (S0 : MVMO K) (h0 : BestInv S0) (n : ℕ) (S : MVMO K)
    (h : Reach O S0 n S) : BestInv S := by
  induction h with
  | init => exact h0
  | run n S x _ ih => exact bestInv_run_func S x ih
  | step n S S' _ hstep ih => exact bestInv_step O S S' hstep ih

/-- C4: after at least one evaluation the best value is the least recorded
value and the best point is the image of the earliest record attaining it. -/
theorem best_is_history_minimum (O : Extern K) (S0 : MVMO K)
    (hy : S0._best_y = ⊤) (hdbx : S0._dbx = []) (hdby : S0._dby = [])
    (n : ℕ) (S : MVMO K) (hreach : Reach O S0 n S) (hn : 0 < n) :
    S._best_y = S._dby.minimum ∧
    ∃ (i : ℕ) (c : List K) (v : K),
      S._dbx[i]? = some c ∧ S._dby[i]? = some v ∧ (v : WithTop K) = S._best_y ∧
      (∀ (j : ℕ) (w : K), j < i → S._dby[j]? = some w → S._best_y < (w : WithTop K)) ∧
      S._best_x = S._scale_back c := by
  have h0 : BestInv S0 := by
    refine ⟨by rw [hdbx, hdby]; rfl, by rw [hy, hdby, List.minimum_nil], ?_⟩
    intro hne
    exact absurd hdby hne
  obtain ⟨_, hmin, hpt⟩ := bestInv_reach O S0 h0 n S hreach
  refine ⟨hmin, hpt ?_⟩
  have := (reach_counter O S0 n S hreach).2.2
  intro hnil
  rw [hnil, hdby] at this
  simp only [List.length_nil] at this
  omega

/-! ## Construction -/

theorem all_lt_iff (lb : List K) :
    ∀ ub : List K, all_lt lb ub = true ↔
      ∀ (i : ℕ) (l u : K), lb[i]? = some l → ub[i]? = some u → l < u := by
  induction lb with
  | nil => intro ub; simp [all_lt]
  | cons a lb ih =>
    intro ub
    cases ub with
    | nil => simp [all_lt]
    | cons b ub =>
      simp only [all_lt, Bool.and_eq_true, decide_eq_true_eq, ih ub]
      constructor
      · rintro ⟨hab, hrest⟩ i l u hl hu
        cases i with
        | zero =>
          simp only [List.getElem?_cons_zero, Option.some.injEq] at hl hu
          rw [← hl, ← hu]
          exact hab
        | succ i =>
          simp only [List.getElem?_cons_succ] at hl hu
          exact hrest i l u hl hu
      · intro h
        refine ⟨h 0 a b (by simp) (by simp), ?_⟩
        intro i l u hl hu
        exact h (i + 1) l u (by simpa using hl) (by simpa using hu)

/-- C8: the constructor fails exactly on bounds of different dimension or with
some `lb[i] >= ub[i]`; otherwise it yields an optimizer with empty history and
the default settings. -/
theorem construct_fails_iff (f : List K → K) (lb ub : List K) :
    (construct f lb ub = none ↔
      (lb.length ≠ ub.length ∨ ∃ (i : ℕ) (l u : K), lb[i]? = some l ∧ ub[i]? = some u ∧ l ≥ u)) ∧
    (lb.length = ub.length →
      (∀ (i : ℕ) (l u : K), lb[i]? = some l → ub[i]? = some u → l < u) →
      ∃ S : MVMO K, construct f lb ub = some S ∧
        S._dim = lb.length ∧ S._lb = lb ∧ S._ub = ub ∧ S._dbx = [] ∧ S._dby = [] ∧
        S._max_eval = lb.length * 50 ∧ S._num_init = lb.length * 5 ∧ S._archive_size = 5 ∧
        S._fs_init = 0.5 ∧ S._fs_final = 20 ∧
        S._m_init = toSize (max (1 : K) ((lb.length : K) / 6)) ∧
        S._m_final = toSize (max (1 : K) ((lb.length : K) / 2)) ∧
        S._delta_d0 = 0.25) := by
  constructor
  · unfold construct
    by_cases hlen : lb.length = ub.length
    · rw [if_pos hlen]
      by_cases hall : all_lt lb ub = true
      · rw [if_pos hall]
        simp only [reduceCtorEq, ne_eq, hlen, not_true_eq_false, ge_iff_le, false_or, false_iff,
          not_exists, not_and, not_le]
        exact (all_lt_iff lb ub).mp hall
      · rw [if_neg hall]
        simp only [ne_eq, hlen, not_true_eq_false, ge_iff_le, false_or, true_iff]
        rw [all_lt_iff] at hall
        push_neg at hall
        exact hall
    · rw [if_neg hlen]
      simp only [ne_eq, hlen, not_false_eq_true, true_or]
  · intro hlen hlt
    refine ⟨_default_setting { declared f lb ub with _dbx := [], _dby := [] }, ?_, ?_⟩
    · unfold construct
      rw [if_pos hlen, if_pos ((all_lt_iff lb ub).mpr hlt)]
    · refine ⟨rfl, rfl, rfl, rfl, rfl, rfl, rfl, rfl, rfl, rfl, rfl, rfl, rfl⟩

/-! ## The mapping function -/

/-- C10: the mutated-coordinate map of `optimize_one_step` takes the value 0
at `u = 0` and the value 1 at `u = 1`, whatever the mean and shaping values. -/
theorem mapped_anchors_endpoints (O : Extern K) (xbar s1 s2 : K) :
    mapped O xbar s1 s2 0 = 0 ∧ mapped O xbar s1 s2 1 = 1 := by
  constructor
  · unfold mapped
    norm_num
  · have a7 : (1.0 : K) = 1 := by norm_num
    unfold mapped
    simp only [a7]
    ring

theorem mapped_eq (O : Extern K) (xbar s1 s2 u : K) (h0 : O.exp 0 = 1) :
    mapped O xbar s1 s2 u =
      xbar * (1 - O.exp (-(u * s1))) + (1 - xbar) * (O.exp (-((1 - u) * s2)) - O.exp (-s2)) +
        (xbar * O.exp (-s1) + (1 - xbar) * O.exp (-s2)) * u := by
  have a1 : (-1 : K) * u * s1 = -(u * s1) := by ring
  have a2 : (-1 : K) * (1 - u) * s2 = -((1 - u) * s2) := by ring
  have a3 : (-1 : K) * 0 * s1 = 0 := by ring
  have a4 : (-1 : K) * (1 - 0) * s2 = -s2 := by ring
  have a5 : (-1 : K) * 1 * s1 = -s1 := by ring
  have a6 : (-1 : K) * (1 - 1) * s2 = 0 := by ring
  have a7 : (1.0 : K) = 1 := by norm_num
  unfold mapped _hfunc
  simp only [a1, a2, a3, a4, a5, a6, a7, h0]
  ring

theorem mapped_nonneg (O : Extern K) (h0 : O.exp 0 = 1) (hmono : Monotone O.exp)
    (hnn : ∀ x, 0 ≤ O.exp x) (xbar s1 s2 u : K) (hx0 : 0 ≤ xbar) (hx1 : xbar ≤ 1)
    (hs1 : 0 ≤ s1) (hs2 : 0 ≤ s2) (hu0 : 0 ≤ u) :
    0 ≤ mapped O xbar s1 s2 u := by
  rw [mapped_eq O xbar s1 s2 u h0]
  have e1 : O.exp (-(u * s1)) ≤ 1 := by
    have h := hmono (by simpa using mul_nonneg hu0 hs1 : -(u * s1) ≤ 0)
    rwa [h0] at h
  have e2 : O.exp (-s2) ≤ O.exp (-((1 - u) * s2)) := by
    apply hmono
    have : (1 - u) * s2 ≤ s2 := by nlinarith
    linarith
  have t1 : 0 ≤ xbar * (1 - O.exp (-(u * s1))) := mul_nonneg hx0 (by linarith)
  have t2 : 0 ≤ (1 - xbar) * (O.exp (-((1 - u) * s2)) - O.exp (-s2)) :=
    mul_nonneg (by linarith) (by linarith)
  have t3 : 0 ≤ (xbar * O.exp (-s1) + (1 - xbar) * O.exp (-s2)) * u :=
    mul_nonneg (add_nonneg (mul_nonneg hx0 (hnn _)) (mul_nonneg (by linarith) (hnn _))) hu0
  linarith

theorem mapped_le_one (O : Extern K) (h0 : O.exp 0 = 1) (hmono : Monotone O.exp)
    (hnn : ∀ x, 0 ≤ O.exp x) (xbar s1 s2 u : K) (hx0 : 0 ≤ xbar) (hx1 : xbar ≤ 1)
    (hs1 : 0 ≤ s1) (hs2 : 0 ≤ s2) (hu1 : u ≤ 1) :
    mapped O xbar s1 s2 u ≤ 1 := by
  rw [mapped_eq O xbar s1 s2 u h0]
  have e1 : O.exp (-s1) ≤ O.exp (-(u * s1)) := by
    apply hmono
    have : u * s1 ≤ s1 := by nlinarith
    linarith
  have e2 : O.exp (-((1 - u) * s2)) ≤ 1 := by
    have h := hmono (by
      have := mul_nonneg (by linarith : (0 : K) ≤ 1 - u) hs2
      linarith : -((1 - u) * s2) ≤ 0)
    rwa [h0] at h
  have t1 : 0 ≤ xbar * (O.exp (-(u * s1)) - O.exp (-s1)) := mul_nonneg hx0 (by linarith)
  have t2 : 0 ≤ (1 - xbar) * (1 - O.exp (-((1 - u) * s2))) :=
    mul_nonneg (by linarith) (by linarith)
  have t3 : 0 ≤ (xbar * O.exp (-s1) + (1 - xbar) * O.exp (-s2)) * (1 - u) :=
    mul_nonneg (add_nonneg (mul_nonneg hx0 (hnn _)) (mul_nonneg (by linarith) (hnn _)))
      (by linarith)
  nlinarith

/-- C7: a coordinate written by the mutation step lies in `[0, 1]`. The
function `exp` enters through three of its properties: `exp 0 = 1`, it is
monotone and it is nowhere negative. -/
theorem mutated_coordinate_in_unit_interval (O : Extern K) (h0 : O.exp 0 = 1)
    (hmono : Monotone O.exp) (hnn : ∀ x, 0 ≤ O.exp x)
    (acc : List K × MVMO K) (idx : ℕ) (hidx : idx < acc.1.length)
    (hx0 : 0 ≤ acc.2._archive_mean.getD idx 0) (hx1 : acc.2._archive_mean.getD idx 0 ≤ 1)
    (hs1 : 0 ≤ acc.2._archive_s1.getD idx 0) (hs2 : 0 ≤ acc.2._archive_s2.getD idx 0)
    (hu0 : 0 ≤ O.rand01 acc.2.rng) (hu1 : O.rand01 acc.2.rng ≤ 1) :
    ∃ v : K, (mutate O acc idx).1[idx]? = some v ∧ 0 ≤ v ∧ v ≤ 1 := by
  have hv0 := mapped_nonneg O h0 hmono hnn _ _ _ _ hx0 hx1 hs1 hs2 hu0
  have hv1 := mapped_le_one O h0 hmono hnn _ _ _ _ hx0 hx1 hs1 hs2 hu1
  have a1 : (1.0 : K) = 1 := by norm_num
  have a0 : (0.0 : K) = 0 := by norm_num
  unfold mutate
  lift_lets
  intro new_x S xbar s1 s2 r v r2
  have hset : ∀ w : K, (new_x.set idx w)[idx]? = some w := fun w =>
    List.getElem?_set_self hidx
  split_ifs
  · exact ⟨1.0, hset _, by rw [a1]; exact zero_le_one, by rw [a1]⟩
  · exact ⟨v, hset _, hv0, hv1⟩
  · exact ⟨0.0, hset _, by rw [a0], by rw [a0]; exact zero_le_one⟩
  · exact ⟨v, hset _, hv0, hv1⟩
  · exact ⟨v, hset _, hv0, hv1⟩

/-! ## The mutation count -/

theorem toSize_bounds (x : K) (lo hi : ℕ) (h1 : (lo : K) ≤ x) (h2 : x ≤ (hi : K)) :
    lo ≤ toSize x ∧ toSize x ≤ hi :=
  ⟨Nat.le_floor h1, Nat.floor_le_of_le h2⟩

theorem between_bounds (a p q lo hi : K) (ha0 : 0 ≤ a) (ha1 : a ≤ 1)
    (hp : lo ≤ p ∧ p ≤ hi) (hq : lo ≤ q ∧ q ≤ hi) :
    lo ≤ p - a * (p - q) ∧ p - a * (p - q) ≤ hi := by
  have e : p - a * (p - q) = (1 - a) * p + a * q := by ring
  rw [e]
  have h1 : 0 ≤ 1 - a := by linarith
  constructor
  · nlinarith [mul_nonneg h1 (sub_nonneg.mpr hp.1), mul_nonneg ha0 (sub_nonneg.mpr hq.1)]
  · nlinarith [mul_nonneg h1 (sub_nonneg.mpr hp.2), mul_nonneg ha0 (sub_nonneg.mpr hq.2)]

theorem m_bounds (O : Extern K) (S : MVMO K) (lo hi : ℕ)
    (hinit : lo ≤ S._m_init ∧ S._m_init ≤ hi) (hfinal : lo ≤ S._m_final ∧ S._m_final ≤ hi)
    (hmax : 0 < S._max_eval) (hprog : S._eval_counter ≤ S._max_eval)
    (hu0 : 0 ≤ O.rand01 S.rng) (hu1 : O.rand01 S.rng ≤ 1) :
    lo ≤ (_m O S).1 ∧ (_m O S).1 ≤ hi := by
  have hmax' : (0 : K) < (S._max_eval : K) := by exact_mod_cast hmax
  have ha0 : (0 : K) ≤ (S._eval_counter : K) / (S._max_eval : K) :=
    div_nonneg (Nat.cast_nonneg _) (le_of_lt hmax')
  have ha1 : (S._eval_counter : K) / (S._max_eval : K) ≤ 1 := by
    rw [div_le_one hmax']
    exact_mod_cast hprog
  have hi1 : (lo : K) ≤ (S._m_init : K) ∧ (S._m_init : K) ≤ (hi : K) :=
    ⟨by exact_mod_cast hinit.1, by exact_mod_cast hinit.2⟩
  have hf1 : (lo : K) ≤ (S._m_final : K) ∧ (S._m_final : K) ≤ (hi : K) :=
    ⟨by exact_mod_cast hfinal.1, by exact_mod_cast hfinal.2⟩
  have hstar := toSize_bounds _ lo hi
    (between_bounds _ _ _ _ _ ha0 ha1 hi1 hf1).1 (between_bounds _ _ _ _ _ ha0 ha1 hi1 hf1).2
  have hstar1 : (lo : K) ≤ ((toSize ((S._m_init : K) -
      (S._eval_counter : K) / (S._max_eval : K) * ((S._m_init : K) - (S._m_final : K))) : ℕ) : K) ∧
      ((toSize ((S._m_init : K) -
      (S._eval_counter : K) / (S._max_eval : K) * ((S._m_init : K) - (S._m_final : K))) : ℕ) : K)
        ≤ (hi : K) :=
    ⟨by exact_mod_cast hstar.1, by exact_mod_cast hstar.2⟩
  have hb := between_bounds (O.rand01 S.rng) _ _ _ _ hu0 hu1 hf1 hstar1
  have e : ∀ p q : K, p + O.rand01 S.rng * (q - p) = p - O.rand01 S.rng * (p - q) := by
    intro p q
    ring
  unfold _m
  simp only [pow_one, _rand01, e]
  exact toSize_bounds _ lo hi hb.1 hb.2

/-- C9, as the code has it: with both mutation-count settings between 1 and
the dimension, the count returned by `_m` is between 1 and the dimension. -/
theorem m_within_dimension (O : Extern K) (S : MVMO K)
    (hinit : 1 ≤ S._m_init ∧ S._m_init ≤ S._dim)
    (hfinal : 1 ≤ S._m_final ∧ S._m_final ≤ S._dim)
    (hmax : 0 < S._max_eval) (hprog : S._eval_counter ≤ S._max_eval)
    (hu0 : 0 ≤ O.rand01 S.rng) (hu1 : O.rand01 S.rng ≤ 1) :
    1 ≤ (_m O S).1 ∧ (_m O S).1 ≤ S._dim :=
  m_bounds O S 1 S._dim hinit hfinal hmax hprog hu0 hu1

/-! ## The archive selection -/

theorem foldl_set_eq_append {α : Type} (g : ℕ → α) :
    ∀ (n : ℕ) (m : List α), n ≤ m.length →
      (List.range n).foldl (fun (m : List α) i => m.set i (g i)) m =
        (List.range n).map g ++ m.drop n := by
  intro n
  induction n with
  | zero => intro m _; simp
  | succ n ih =>
    intro m hm
    rw [List.range_succ, List.foldl_append, List.map_append, ih m (by omega)]
    simp only [List.foldl_cons, List.foldl_nil, List.map_cons, List.map_nil]
    rw [List.set_append]
    simp only [List.length_map, List.length_range, lt_self_iff_false, if_false, Nat.sub_self]
    rw [List.append_assoc]
    congr 1
    rw [List.drop_eq_getElem_cons (by omega : n < m.length)]
    rfl

theorem foldl_set_eq_map {α : Type} (g : ℕ → α) (n : ℕ) (m : List α) (hm : m.length = n) :
    (List.range n).foldl (fun (m : List α) i => m.set i (g i)) m = (List.range n).map g := by
  rw [foldl_set_eq_append g n m (by omega), List.drop_of_length_le (by omega), List.append_nil]

theorem take_eq_map_range (r : List ℕ) (k : ℕ) (hk : k ≤ r.length) :
    r.take k = (List.range k).map (fun i => r.getD i 0) := by
  apply List.ext_getElem
  · simp [hk]
  · intro i h1 h2
    have hi : i < k := by simpa using h2
    simp only [List.getElem_take, List.getElem_map, List.getElem_range, List.getD_eq_getElem?_getD]
    rw [List.getElem?_eq_getElem (by omega)]
    rfl

theorem map_getD_range (l : List K) : (List.range l.length).map (fun i => l.getD i 0) = l := by
  apply List.ext_getElem
  · simp
  · intro i h1 h2
    simp only [List.getElem_map, List.getElem_range, List.getD_eq_getElem?_getD]
    rw [List.getElem?_eq_getElem h2]
    rfl

/-- A part of a list that lies below the rest of it is, up to order, the
front of the sorted list. -/
theorem perm_take_sort (l A B : List K) (h : (A ++ B).Perm l)
    (hAB : ∀ a ∈ A, ∀ b ∈ B, a ≤ b) :
    A.Perm ((l.insertionSort (fun p q => p ≤ q)).take A.length) := by
  have hs : (A.insertionSort (fun p q => p ≤ q) ++ B.insertionSort (fun p q => p ≤ q)).Sorted
      (fun p q => p ≤ q) := by
    unfold List.Sorted
    rw [List.pairwise_append]
    refine ⟨List.sorted_insertionSort _ A, List.sorted_insertionSort _ B, ?_⟩
    intro a ha b hb
    exact hAB a ((List.perm_insertionSort _ A).mem_iff.mp ha) b
      ((List.perm_insertionSort _ B).mem_iff.mp hb)
  have hp : (A.insertionSort (fun p q => p ≤ q) ++ B.insertionSort (fun p q => p ≤ q)).Perm
      (l.insertionSort (fun p q => p ≤ q)) :=
    ((List.perm_insertionSort _ A).append (List.perm_insertionSort _ B)).trans
      (h.trans (List.perm_insertionSort _ l).symm)
  have heq := List.eq_of_perm_of_sorted hp hs (List.sorted_insertionSort _ l)
  rw [← heq, ← List.length_insertionSort (fun p q => p ≤ q) A, List.take_left]
  exact (List.perm_insertionSort _ A).symm

theorem foldlM_rel (R : MVMO K → MVMO K → Prop) (hrefl : ∀ S, R S S)
    (htrans : ∀ S T U, R S T → R T U → R S U) (g : MVMO K → ℕ → Option (MVMO K))
    (hg : ∀ S T i, g S i = some T → R S T) :
    ∀ (l : List ℕ) (S T : MVMO K), l.foldlM g S = some T → R S T := by
  intro l
  induction l with
  | nil => intro S T h; simp at h; subst h; exact hrefl S
  | cons a l ih =>
    intro S T h
    simp only [List.foldlM_cons, Option.bind_eq_bind, Option.bind_eq_some] at h
    obtain ⟨U, hU, hT⟩ := h
    exact htrans S U T (hg S U a hU) (ih U T hT)

theorem fs_archive_x (O : Extern K) (S : MVMO K) : (_fs O S)._archive_x = S._archive_x := by
  unfold _fs
  lift_lets
  intro alpha fs_star r1 r2
  split_ifs <;> rfl

theorem archive_stat_archive_x (O : Extern K) (fs : K) (S : MVMO K) (i : ℕ) (mv : K × K) :
    (archive_stat O fs S i mv)._archive_x = S._archive_x := by
  unfold archive_stat
  lift_lets
  intro mean var s S1 r1 delta_d d src S2 r2 r S3
  have hr : S3 = if s > 0 then r2.2 else S1 := by
    show r.2.2 = _
    simp only [r]
    split_ifs <;> rfl
  show S3._archive_x = _
  rw [hr]
  split_ifs <;> rfl

theorem archive_dim_archive_x (O : Extern K) (fs : K) (S T : MVMO K) (i : ℕ)
    (h : archive_dim O fs S i = some T) : T._archive_x = S._archive_x := by
  unfold archive_dim at h
  simp only [Option.map_eq_some'] at h
  obtain ⟨mv, _, hT⟩ := h
  rw [← hT]
  exact archive_stat_archive_x O fs S i mv

theorem mean_var_noeq_isSome (xs : List K) (h : xs ≠ []) : ∃ mv, _mean_var_noeq xs = some mv := by
  unfold _mean_var_noeq
  cases hsort : xs.insertionSort (fun p q => p ≤ q) with
  | nil =>
    exfalso
    apply h
    have := List.length_insertionSort (fun p q : K => p ≤ q) xs
    rw [hsort] at this
    exact List.length_eq_zero.mp this.symm
  | cons v0 vs =>
    simp only []
    split_ifs
    · exact ⟨_, rfl⟩
    · exact ⟨_, rfl⟩

theorem archive_loop_isSome (O : Extern K) (fs : K) :
    ∀ (l : List ℕ) (S : MVMO K), S._archive_x ≠ [] → ∃ T, l.foldlM (archive_dim O fs) S = some T := by
  intro l
  induction l with
  | nil => intro S _; exact ⟨S, rfl⟩
  | cons a l ih =>
    intro S hS
    obtain ⟨mv, hmv⟩ := mean_var_noeq_isSome (S._archive_x.map (fun col => col.getD a 0))
      (by simpa using hS)
    have h1 : archive_dim O fs S a = some (archive_stat O fs S a mv) := by
      unfold archive_dim
      simp only [hmv, Option.map_some']
    obtain ⟨T, hT⟩ := ih (archive_stat O fs S a mv) (by rw [archive_stat_archive_x]; exact hS)
    exact ⟨T, by simp only [List.foldlM_cons, Option.bind_eq_bind, h1, Option.some_bind, hT]⟩

theorem archive_stats_archive_x (O : Extern K) (S T : MVMO K) (h : archive_stats O S = some T) :
    T._archive_x = S._archive_x := by
  unfold archive_stats at h
  have hx := foldlM_rel (fun S T => T._archive_x = S._archive_x) (fun _ => rfl)
    (fun _ _ _ h1 h2 => h2.trans h1) _ (archive_dim_archive_x O _) _ _ _ h
  simp only [] at hx
  rw [hx, fs_archive_x]

theorem archive_stats_isSome (O : Extern K) (S : MVMO K) (h : S._archive_x ≠ []) :
    ∃ T, archive_stats O S = some T := by
  unfold archive_stats
  apply archive_loop_isSome
  rw [fs_archive_x]
  exact h

theorem archive_guards (O : Extern K) (S T : MVMO K) (h : _archive O S = some T) :
    S._eval_counter = S._dbx.length ∧ S._archive_size ≤ S._eval_counter ∧
      archive_stats O (archive_copy O S) = some T := by
  unfold _archive at h
  split_ifs at h with h1 h2
  exact ⟨h1, by simpa [_seq_idx] using h2, h⟩

theorem archive_isSome (O : Extern K) (S : MVMO K) (h1 : S._eval_counter = S._dbx.length)
    (h2 : S._archive_size ≤ S._eval_counter) (h3 : S._archive_x ≠ []) :
    ∃ T, _archive O S = some T := by
  unfold _archive
  rw [if_pos h1, if_pos (by simpa [_seq_idx] using h2)]
  apply archive_stats_isSome
  intro h
  apply h3
  have := (archive_copy_frame O S).archive_x
  rw [h] at this
  exact List.length_eq_zero.mp this.symm

theorem archive_archive_x (O : Extern K) (S T : MVMO K) (h : _archive O S = some T)
    (hax : S._archive_x.length = S._archive_size) (hsel : (archive_select O S).length = S._dbx.length) :
    T._archive_x = ((archive_select O S).take S._archive_size).map (fun i => S._dbx.getD i []) := by
  obtain ⟨h1, h2, h3⟩ := archive_guards O S T h
  rw [archive_stats_archive_x O _ T h3]
  show (List.range S._archive_size).foldl _ S._archive_x = _
  rw [foldl_set_eq_map _ _ _ hax, take_eq_map_range _ _ (by omega), List.map_map]
  rfl

/-- C6: after `_archive` the archive columns are the points of
`archive_size` distinct records, no record left out has a smaller value than
a selected one, and the selected values are, up to order, the first
`archive_size` entries of the sorted list of all recorded values. The step
completes whenever the archive holds at least one column. -/
theorem archive_holds_smallest (O : Extern K) (hnth : NthElementSpec O) (S : MVMO K)
    (hdby : S._dby.length = S._dbx.length) (hax : S._archive_x.length = S._archive_size) :
    (∀ T, _archive O S = some T →
      ∃ sel : List ℕ, sel.length = S._archive_size ∧ sel.Nodup ∧
        (∀ i ∈ sel, i < S._dbx.length) ∧
        T._archive_x = sel.map (fun i => S._dbx.getD i []) ∧
        (∀ i ∈ sel, ∀ j, j < S._dbx.length → j ∉ sel → S._dby.getD i 0 ≤ S._dby.getD j 0) ∧
        (sel.map (fun i => S._dby.getD i 0)).Perm
          ((S._dby.insertionSort (fun p q => p ≤ q)).take S._archive_size)) ∧
    (S._eval_counter = S._dbx.length → S._archive_size ≤ S._dbx.length →
      1 ≤ S._archive_size → ∃ T, _archive O S = some T) := by
  constructor
  · intro T hT
    obtain ⟨h1, h2, _⟩ := archive_guards O S T hT
    have hspec := hnth (fun i => S._dby.getD i 0) (List.range S._eval_counter) S._archive_size
      (by simpa using h2)
    have hperm : (archive_select O S).Perm (List.range S._dbx.length) := by
      rw [← h1]
      exact hspec.1
    have hord : ∀ a ∈ (archive_select O S).take S._archive_size,
        ∀ b ∈ (archive_select O S).drop S._archive_size, ¬ S._dby.getD b 0 < S._dby.getD a 0 :=
      hspec.2
    have hlen : (archive_select O S).length = S._dbx.length := by
      rw [hperm.length_eq, List.length_range]
    refine ⟨(archive_select O S).take S._archive_size, ?_, ?_, ?_, ?_, ?_, ?_⟩
    · rw [List.length_take, hlen]
      omega
    · exact ((hperm.nodup_iff).mpr (List.nodup_range _)).sublist (List.take_sublist _ _)
    · intro i hi
      exact List.mem_range.mp (hperm.mem_iff.mp (List.mem_of_mem_take hi))
    · exact archive_archive_x O S T hT hax hlen
    · intro i hi j hj hnot
      have hjr : j ∈ (archive_select O S).take S._archive_size ++
          (archive_select O S).drop S._archive_size := by
        rw [List.take_append_drop]
        exact hperm.mem_iff.mpr (List.mem_range.mpr hj)
      rcases List.mem_append.mp hjr with h | h
      · exact absurd h hnot
      · exact not_lt.mp (hord i hi j h)
    · have hA : ((archive_select O S).take S._archive_size).length = S._archive_size := by
        rw [List.length_take, hlen]
        omega
      have hall : (((archive_select O S).take S._archive_size).map (fun i => S._dby.getD i 0) ++
          ((archive_select O S).drop S._archive_size).map (fun i => S._dby.getD i 0)).Perm
            S._dby := by
        rw [← List.map_append, List.take_append_drop]
        have := hperm.map (fun i => S._dby.getD i 0)
        rw [← hdby, map_getD_range] at this
        exact this
      have := perm_take_sort S._dby _ _ hall (by
        intro a ha b hb
        obtain ⟨i, hi, rfl⟩ := List.mem_map.mp ha
        obtain ⟨j, hj, rfl⟩ := List.mem_map.mp hb
        exact not_lt.mp (hord i hi j hj))
      rw [List.length_map, hA] at this
      exact this
  · intro h1 h2 h3
    apply archive_isSome O S h1 (by omega)
    intro h
    rw [h] at hax
    simp only [List.length_nil] at hax
    omega

/-! ## Termination of `optimize` -/

theorem mem_set_insert (x y : ℕ) (s : List ℕ) : y ∈ set_insert x s ↔ y = x ∨ y ∈ s := by
  unfold set_insert
  split_ifs with h
  · constructor
    · intro hy
      exact Or.inr hy
    · rintro (rfl | hy)
      · exact h
      · exact hy
  · exact List.mem_orderedInsert _

theorem nodup_set_insert (x : ℕ) (s : List ℕ) (h : s.Nodup) : (set_insert x s).Nodup := by
  unfold set_insert
  split_ifs with hx
  · exact h
  · exact (List.perm_orderedInsert _ x s).nodup_iff.mpr (List.nodup_cons.mpr ⟨hx, h⟩)

theorem pick_loop_none (O : Extern K) (n m : ℕ) :
    ∀ (fuel c : ℕ) (picked : List ℕ), picked.Nodup → pick_loop O n m fuel c picked = none →
      ∃ final : List ℕ, final.Nodup ∧ final.length < m ∧ (∀ x ∈ picked, x ∈ final) ∧
        ∀ j, j < fuel → O.i_distr (c + j) % n ∈ final := by
  intro fuel
  induction fuel with
  | zero =>
    intro c picked hnd h
    simp only [pick_loop] at h
    split_ifs at h with hlt
    exact ⟨picked, hnd, hlt, fun x hx => hx, fun j hj => absurd hj (Nat.not_lt_zero j)⟩
  | succ fuel ih =>
    intro c picked hnd h
    simp only [pick_loop] at h
    split_ifs at h with hlt
    obtain ⟨final, h1, h2, h3, h4⟩ := ih (c + 1) _ (nodup_set_insert _ picked hnd) h
    refine ⟨final, h1, h2, ?_, ?_⟩
    · intro x hx
      exact h3 x ((mem_set_insert _ _ _).mpr (Or.inr hx))
    · intro j hj
      cases j with
      | zero => exact h3 _ ((mem_set_insert _ _ _).mpr (Or.inl rfl))
      | succ j =>
        have := h4 j (by omega)
        rwa [Nat.add_assoc, Nat.add_comm 1 j] at this

theorem pick_loop_isSome (O : Extern K) (n m : ℕ) (hfair : FairIndexDraws O n) (hm : m ≤ n)
    (c : ℕ) : ∃ r, pick_loop O n m O.pick_fuel c [] = some r := by
  cases h : pick_loop O n m O.pick_fuel c [] with
  | some r => exact ⟨r, rfl⟩
  | none =>
    exfalso
    obtain ⟨final, h1, h2, _, h4⟩ := pick_loop_none O n m O.pick_fuel c [] List.nodup_nil h
    have hsub : List.range n ⊆ final := by
      intro r hr
      obtain ⟨j, hj, hjr⟩ := hfair c r (List.mem_range.mp hr)
      rw [← hjr]
      exact h4 j hj
    have := (List.subperm_of_subset (List.nodup_range n) hsub).length_le
    rw [List.length_range] at this
    omega

theorem pick_isSome (O : Extern K) (S : MVMO K) (n m : ℕ) (hfair : FairIndexDraws O n)
    (hm : m ≤ n) : ∃ p, _pick_from_seq O S n m = some p := by
  obtain ⟨r, hr⟩ := pick_loop_isSome O n m hfair hm S.irng
  unfold _pick_from_seq
  rw [if_pos hm, hr]
  exact ⟨_, rfl⟩

theorem run_func_settings (S : MVMO K) (x : List K) :
    (S._run_func x).1._dim = S._dim ∧ (S._run_func x).1._max_eval = S._max_eval ∧
    (S._run_func x).1._archive_size = S._archive_size ∧
    (S._run_func x).1._archive_x = S._archive_x ∧
    (S._run_func x).1._m_init = S._m_init ∧ (S._run_func x).1._m_final = S._m_final := by
  unfold _run_func
  simp only []
  split_ifs <;> exact ⟨rfl, rfl, rfl, rfl, rfl, rfl⟩

theorem run_func_batch_settings (xs : List (List K)) :
    ∀ S : MVMO K, (S._run_func_batch xs).1._dim = S._dim ∧
      (S._run_func_batch xs).1._max_eval = S._max_eval ∧
      (S._run_func_batch xs).1._archive_size = S._archive_size ∧
      (S._run_func_batch xs).1._archive_x = S._archive_x ∧
      (S._run_func_batch xs).1._m_init = S._m_init ∧
      (S._run_func_batch xs).1._m_final = S._m_final := by
  induction xs with
  | nil => intro S; exact ⟨rfl, rfl, rfl, rfl, rfl, rfl⟩
  | cons x xs ih =>
    intro S
    simp only [_run_func_batch]
    obtain ⟨a1, a2, a3, a4, a5, a6⟩ := ih (S._run_func x).1
    obtain ⟨b1, b2, b3, b4, b5, b6⟩ := run_func_settings S x
    exact ⟨a1.trans b1, a2.trans b2, a3.trans b3, a4.trans b4, a5.trans b5, a6.trans b6⟩

theorem runInv_step (O : Extern K) (S S' : MVMO K) (hstep : optimize_one_step O S = some S')
    (h : RunInv S) :
    RunInv S' ∧ S'._eval_counter = S._eval_counter + 1 ∧ S'._max_eval = S._max_eval ∧
      S'._dim = S._dim := by
  obtain ⟨S1, T, x, hseed, hfr, hS'⟩ := step_frame O S S' hstep
  have hS1 : Frame S S1 ∨ ∃ c, S1 = { S with _best_x := S._scale_back c } := by
    rcases hseed with ⟨_, h1⟩ | ⟨_, c, rest, _, h1⟩
    · left
      rw [h1]
      exact Frame.refl S
    · exact Or.inr ⟨c, h1⟩
  have e : T._eval_counter = S._eval_counter ∧ T._dbx = S._dbx ∧ T._dby = S._dby ∧
      T._archive_size = S._archive_size ∧ T._archive_x.length = S._archive_x.length ∧
      T._m_init = S._m_init ∧ T._m_final = S._m_final ∧ T._dim = S._dim ∧
      T._max_eval = S._max_eval := by
    rcases hS1 with h1 | ⟨c, h1⟩
    · have := h1.trans hfr
      exact ⟨this.eval_counter, this.dbx, this.dby, this.archive_size, this.archive_x,
        this.m_init, this.m_final, this.dim, this.max_eval⟩
    · rw [h1] at hfr
      exact ⟨hfr.eval_counter, hfr.dbx, hfr.dby, hfr.archive_size, hfr.archive_x,
        hfr.m_init, hfr.m_final, hfr.dim, hfr.max_eval⟩
  obtain ⟨e1, e2, e3, e4, e5, e6, e7, e8, e9⟩ := e
  obtain ⟨b1, b2, b3, b4, b5, b6⟩ := run_func_settings T x
  obtain ⟨i1, i2, i3, i4, i5, i6, i7⟩ := h
  rw [hS']
  refine ⟨⟨?_, ?_, ?_, ?_, ?_, ?_, ?_⟩, ?_, ?_, ?_⟩
  · rw [run_func_eval_counter, run_func_dbx, e1, e2, i1]
    simp
  · rw [run_func_dby, run_func_dbx, e2, e3]
    simp [i2]
  · rw [b3, e4]
    exact i3
  · rw [b3, e4, run_func_eval_counter, e1]
    omega
  · rw [b4, b3, e5, e4]
    exact i5
  · rw [b5, b1, e6, e8]
    exact i6
  · rw [b6, b1, e7, e8]
    exact i7
  · rw [run_func_eval_counter, e1]
  · rw [b2, e9]
  · rw [b1, e8]

theorem step_isSome (O : Extern K) (hrand : Rand01Spec O) (S : MVMO K)
    (hfair : FairIndexDraws O S._dim) (h : RunInv S) (hlt : S._eval_counter < S._max_eval) :
    ∃ S', optimize_one_step O S = some S' := by
  obtain ⟨i1, i2, i3, i4, i5, i6, i7⟩ := h
  have hseed : ∃ S1 : MVMO K,
      (if S._best_y = ⊤ then
        match S._dbx with
        | [] => none
        | c :: _ => some { S with _best_x := S._scale_back c }
      else some S) = some S1 ∧ S1._eval_counter = S._eval_counter ∧ S1._dbx = S._dbx ∧
        S1._archive_size = S._archive_size ∧ S1._archive_x = S._archive_x ∧
        S1._m_init = S._m_init ∧ S1._m_final = S._m_final ∧ S1._dim = S._dim ∧
        S1._max_eval = S._max_eval := by
    by_cases hy : S._best_y = ⊤
    · have hne : ∃ c rest, S._dbx = c :: rest := by
        cases hdbx : S._dbx with
        | nil =>
          rw [hdbx] at i1
          simp only [List.length_nil] at i1
          omega
        | cons c rest => exact ⟨c, rest, rfl⟩
      obtain ⟨c, rest, hdbx⟩ := hne
      refine ⟨{ S with _best_x := S._scale_back c }, ?_, rfl, rfl, rfl, rfl, rfl, rfl, rfl, rfl⟩
      rw [if_pos hy, hdbx]
    · rw [if_neg hy]
      exact ⟨S, rfl, rfl, rfl, rfl, rfl, rfl, rfl, rfl, rfl⟩
  obtain ⟨S1, hS1, s1, s2, s3, s4, s5, s6, s7, s8⟩ := hseed
  obtain ⟨S2, hS2⟩ := archive_isSome O S1 (by rw [s1, s2]; exact i1) (by rw [s3, s1]; exact i4)
    (by
      rw [s4]
      intro hnil
      rw [hnil] at i5
      simp only [List.length_nil] at i5
      omega)
  have hstep1 : ∀ S', optimize_one_step O S = some S' ↔
      ∃ p, _pick_from_seq O (_m O S2).2 (_m O S2).2._dim (_m O S2).1 = some p ∧
        S' = ((p.1.foldl (mutate O) (p.2._scale p.2._best_x, p.2)).2._run_func
              (p.1.foldl (mutate O) (p.2._scale p.2._best_x, p.2)).1).1 := by
    intro S'
    unfold optimize_one_step
    simp only [hS1, Option.some_bind, hS2, Option.bind_eq_some, Option.some.injEq]
    constructor
    · rintro ⟨p, hp, rfl⟩
      exact ⟨p, hp, rfl⟩
    · rintro ⟨p, hp, rfl⟩
      exact ⟨p, hp, rfl⟩
  have hfr := archive_frame O S1 S2 hS2
  have hm := m_bounds O S2 1 S2._dim
    (by rw [hfr.m_init, hfr.dim, s5, s7]; exact i6) (by rw [hfr.m_final, hfr.dim, s6, s7]; exact i7)
    (by rw [hfr.max_eval, s8]; omega) (by rw [hfr.max_eval, hfr.eval_counter, s8, s1]; omega)
    (hrand _).1 (hrand _).2
  have hdim : (_m O S2).2._dim = S._dim := by
    rw [(m_frame O S2).dim, hfr.dim, s7]
  obtain ⟨p, hp⟩ := pick_isSome O (_m O S2).2 (_m O S2).2._dim (_m O S2).1
    (by rw [hdim]; exact hfair) (by rw [(m_frame O S2).dim]; exact hm.2)
  exact ⟨_, (hstep1 _).mpr ⟨p, hp, rfl⟩⟩

theorem loop_terminates (O : Extern K) (hrand : Rand01Spec O) :
    ∀ (fuel : ℕ) (S : MVMO K), FairIndexDraws O S._dim → RunInv S →
      S._max_eval - S._eval_counter ≤ fuel →
      ∃ S', optimize_loop O fuel S = some S' ∧
        S'._eval_counter = max S._eval_counter S._max_eval ∧
        S'._dbx.length = S'._eval_counter ∧ S'._dby.length = S'._eval_counter := by
  intro fuel
  induction fuel with
  | zero =>
    intro S _ hinv hfuel
    have hnot : ¬ S._eval_counter < S._max_eval := by omega
    refine ⟨S, by simp only [optimize_loop, if_neg hnot], ?_, hinv.1.symm, ?_⟩
    · exact (max_eq_left (by omega)).symm
    · rw [hinv.2.1, hinv.1]
  | succ n ih =>
    intro S hfair hinv hfuel
    by_cases hlt : S._eval_counter < S._max_eval
    · obtain ⟨U, hU⟩ := step_isSome O hrand S hfair hinv hlt
      obtain ⟨hinvU, hc, hmax, hdim⟩ := runInv_step O S U hU hinv
      obtain ⟨S', hS', h1, h2, h3⟩ := ih U (by rw [hdim]; exact hfair) hinvU
        (by rw [hmax, hc]; omega)
      refine ⟨S', ?_, ?_, h2, h3⟩
      · simp only [optimize_loop, if_pos hlt, hU, Option.some_bind, hS']
      · rw [h1, hmax, hc]
        rw [max_eq_right (by omega), max_eq_right (by omega)]
    · refine ⟨S, by simp only [optimize_loop, if_neg hlt], ?_, hinv.1.symm, ?_⟩
      · exact (max_eq_left (by omega)).symm
      · rw [hinv.2.1, hinv.1]

theorem optimize_terminates (O : Extern K) (hrand : Rand01Spec O) (S : MVMO K)
    (hfair : FairIndexDraws O S._dim)
    (hfresh : S._eval_counter = 0 ∧ S._dbx = [] ∧ S._dby = [])
    (harch : 1 ≤ S._archive_size)
    (hinit : 1 ≤ S._m_init ∧ S._m_init ≤ S._dim) (hfinal : 1 ≤ S._m_final ∧ S._m_final ≤ S._dim)
    (fuel : ℕ) (hfuel : S._max_eval ≤ fuel) :
    ∃ S', optimize O fuel S = some S' ∧
      S'._eval_counter = max (max S._num_init S._archive_size) S._max_eval ∧
      S'._dbx.length = S'._eval_counter ∧ S'._dby.length = S'._eval_counter := by
  obtain ⟨S1, xs, hfr, hxs, _, hinitial⟩ := initialize_eq O (_init_archive S)
  have hreach := reach_counter O S1 _ _ (reach_batch O S1 xs 0 S1 Reach.init)
  rw [← hinitial, hfr.eval_counter, hfr.dbx, hfr.dby] at hreach
  change _ = S._eval_counter + _ ∧ _ = S._dbx.length + _ ∧ _ = S._dby.length + _ at hreach
  rw [hfresh.1, hfresh.2.1, hfresh.2.2, hxs] at hreach
  simp only [List.length_nil, Nat.zero_add] at hreach
  change _ = max S._num_init S._archive_size ∧ _ = max S._num_init S._archive_size ∧
    _ = max S._num_init S._archive_size at hreach
  obtain ⟨c1, c2, c3⟩ := hreach
  obtain ⟨b1, b2, b3, b4, b5, b6⟩ := run_func_batch_settings xs S1
  rw [← hinitial] at b1 b2 b3 b4 b5 b6
  have d1 : ( _initialize O (_init_archive S))._dim = S._dim := b1.trans hfr.dim
  have d2 : ( _initialize O (_init_archive S))._max_eval = S._max_eval := b2.trans hfr.max_eval
  have d3 : ( _initialize O (_init_archive S))._archive_size = S._archive_size :=
    b3.trans hfr.archive_size
  have d4 : ( _initialize O (_init_archive S))._archive_x.length = S._archive_size := by
    rw [b4, hfr.archive_x]
    simp [_init_archive]
  have d5 : ( _initialize O (_init_archive S))._m_init = S._m_init := b5.trans hfr.m_init
  have d6 : ( _initialize O (_init_archive S))._m_final = S._m_final := b6.trans hfr.m_final
  have hinv : RunInv ( _initialize O (_init_archive S)) := by
    refine ⟨by rw [c1, c2], by rw [c3, c2], by rw [d3]; exact harch, ?_, by rw [d4, d3], ?_, ?_⟩
    · rw [d3, c1]
      exact le_max_right _ _
    · rw [d5, d1]
      exact hinit
    · rw [d6, d1]
      exact hfinal
  obtain ⟨S', hS', h1, h2, h3⟩ := loop_terminates O hrand fuel _ (by rw [d1]; exact hfair) hinv
    (by rw [d2]; omega)
  refine ⟨S', hS', ?_, h2, h3⟩
  rw [h1, c1, d2]

theorem default_m_bounds (d : ℕ) (hd : 1 ≤ d) (k : K) (hk : 1 ≤ k) :
    1 ≤ toSize (max (1 : K) ((d : K) / k)) ∧ toSize (max (1 : K) ((d : K) / k)) ≤ d := by
  have hd1 : (1 : K) ≤ (d : K) := by exact_mod_cast hd
  apply toSize_bounds
  · simp
  · apply max_le hd1
    exact div_le_self (by linarith) hk

/-- C2, as the code has it: when the initial batch fits into the budget (and
the archive has at least one column, the dimension is at least 1 and the
mutation-count settings lie between 1 and the dimension), `optimize` on a
fresh optimizer returns after exactly `max_evaluations` evaluations; with the
default settings in dimension `d >= 1` these are `50 * d`. -/
theorem optimize_budget (O : Extern K) (hrand : Rand01Spec O) :
    (∀ (S : MVMO K) (fuel : ℕ), FairIndexDraws O S._dim →
      S._eval_counter = 0 ∧ S._dbx = [] ∧ S._dby = [] →
      1 ≤ S._archive_size →
      1 ≤ S._m_init ∧ S._m_init ≤ S._dim → 1 ≤ S._m_final ∧ S._m_final ≤ S._dim →
      max S._num_init S._archive_size ≤ S._max_eval → S._max_eval ≤ fuel →
      ∃ S', optimize O fuel S = some S' ∧ S'._eval_counter = S._max_eval ∧
        S'._dbx.length = S._max_eval ∧ S'._dby.length = S._max_eval) ∧
    (∀ (f : List K → K) (lb ub : List K) (S : MVMO K) (fuel : ℕ),
      construct f lb ub = some S → 1 ≤ lb.length → FairIndexDraws O lb.length →
      50 * lb.length ≤ fuel →
      ∃ S', optimize O fuel S = some S' ∧ S'._eval_counter = 50 * lb.length ∧
        S'._dbx.length = 50 * lb.length ∧ S'._dby.length = 50 * lb.length) := by
  have general : ∀ (S : MVMO K) (fuel : ℕ), FairIndexDraws O S._dim →
      S._eval_counter = 0 ∧ S._dbx = [] ∧ S._dby = [] →
      1 ≤ S._archive_size →
      1 ≤ S._m_init ∧ S._m_init ≤ S._dim → 1 ≤ S._m_final ∧ S._m_final ≤ S._dim →
      max S._num_init S._archive_size ≤ S._max_eval → S._max_eval ≤ fuel →
      ∃ S', optimize O fuel S = some S' ∧ S'._eval_counter = S._max_eval ∧
        S'._dbx.length = S._max_eval ∧ S'._dby.length = S._max_eval := by
    intro S fuel hfair hfresh harch hinit hfinal hbudget hfuel
    obtain ⟨S', h1, h2, h3, h4⟩ :=
      optimize_terminates O hrand S hfair hfresh harch hinit hfinal fuel hfuel
    rw [max_eq_right hbudget] at h2
    exact ⟨S', h1, h2, by rw [h3, h2], by rw [h4, h2]⟩
  refine ⟨general, ?_⟩
  intro f lb ub S fuel hS hd hfair hfuel
  have hS' : S = _default_setting { declared f lb ub with _dbx := [], _dby := [] } := by
    unfold construct at hS
    split_ifs at hS
    simp only [Option.some.injEq] at hS
    exact hS.symm
  have hmax : S._max_eval = 50 * lb.length := by
    rw [hS']
    exact Nat.mul_comm _ _
  rw [← hmax]
  apply general S fuel
  · rw [hS']
    exact hfair
  · rw [hS']
    exact ⟨rfl, rfl, rfl⟩
  · rw [hS']
    exact (by decide : 1 ≤ 5)
  · rw [hS']
    exact default_m_bounds lb.length hd 6 (by norm_num)
  · rw [hS']
    exact default_m_bounds lb.length hd 2 (by norm_num)
  · rw [hS']
    show max (lb.length * 5) 5 ≤ lb.length * 50
    omega
  · rw [hmax]
    exact hfuel

theorem scale_round_trip_witness :
    demo_fresh._lb.length = demo_fresh._ub.length ∧
    demo_fresh._scale_back (demo_fresh._scale [1, 2]) = [1, 2] ∧
    demo_fresh._scale (demo_fresh._scale_back [1, 2]) = [1, 2] :=
  ⟨by decide, scale_round_trip demo_fresh [1, 2] (by decide) (by decide) (by
    intro i h1 h2
    have hi : i < 2 := h1
    interval_cases i <;> simp [demo_fresh, _default_setting, declared])⟩

theorem demo_step_isSome : (optimize_one_step demo_extern demo_ready).isSome = true := by
  decide!

theorem best_value_never_increases_witness :
    ∃ S' : MVMO ℚ, optimize_one_step demo_extern demo_ready = some S' ∧
      S'._best_y ≤ demo_ready._best_y :=
  ⟨(optimize_one_step demo_extern demo_ready).get demo_step_isSome,
    (Option.some_get demo_step_isSome).symm,
    (best_value_never_increases demo_extern).2.2.1 demo_ready _
      (Option.some_get demo_step_isSome).symm⟩

theorem best_is_history_minimum_witness :
    Reach demo_extern demo_fresh 1 (demo_fresh._run_func [0, 0]).1 ∧
    (demo_fresh._run_func [0, 0]).1._best_y = (demo_fresh._run_func [0, 0]).1._dby.minimum :=
  ⟨Reach.run 0 demo_fresh [0, 0] Reach.init,
    (best_is_history_minimum demo_extern demo_fresh rfl rfl rfl 1 _
      (Reach.run 0 demo_fresh [0, 0] Reach.init) Nat.one_pos).1⟩

theorem evaluation_count_invariant_witness :
    (demo_fresh._run_func [0, 0]).1._dbx = demo_fresh._dbx ++ [[0, 0]] ∧
    (demo_fresh._run_func [0, 0]).1._dbx.length = (demo_fresh._run_func [0, 0]).1._eval_counter :=
  ⟨((evaluation_count_invariant demo_extern).1 demo_fresh [0, 0] rfl rfl).2.1,
    ((evaluation_count_invariant demo_extern).1 demo_fresh [0, 0] rfl rfl).2.2.2.1⟩

theorem construct_fails_iff_witness :
    ∃ S : MVMO ℚ, construct sphere [-5, -5] [5, 5] = some S ∧ S._dbx = [] ∧ S._max_eval = 100 :=
  match (construct_fails_iff sphere [-5, -5] [5, 5]).2 rfl (by
    intro i l u hl hu
    match i with
    | 0 => simp at hl hu; rw [← hl, ← hu]; norm_num
    | 1 => simp at hl hu; rw [← hl, ← hu]; norm_num
    | n + 2 => simp at hl) with
  | ⟨S, h1, _, _, _, h2, _, h3, _⟩ => ⟨S, h1, h2, h3⟩

theorem mutated_coordinate_in_unit_interval_witness :
    ∃ v : ℝ, (mutate (⟨Real.exp, Real.log, demo_nth_element, fun _ => 1 / 2, id,
        fun _ _ => 0, 0⟩ : Extern ℝ)
      ([0], { declared (fun _ => 0) [0] [1] with
                _archive_mean := [1 / 2], _archive_s1 := [1], _archive_s2 := [2] }) 0).1[0]?
        = some v ∧ 0 ≤ v ∧ v ≤ 1 :=
  mutated_coordinate_in_unit_interval _ Real.exp_zero Real.exp_monotone
    (fun x => (Real.exp_pos x).le) _ 0 (by simp) (by simp) (by simp; norm_num) (by simp)
    (by simp) (by simp) (by simp; norm_num)

/-- C9 fails as stated: nothing clamps the count. In dimension 2 the settings
`m_init = m_final = 0` give the count 0 and `m_init = m_final = 3` give 3. -/
theorem m_count_not_clamped :
    1 ≤ demo_ready._dim ∧ demo_ready._dim = 2 ∧
    demo_ready._eval_counter ≤ demo_ready._max_eval ∧ 0 < demo_ready._max_eval ∧
    0 ≤ demo_extern.rand01 demo_ready.rng ∧ demo_extern.rand01 demo_ready.rng ≤ 1 ∧
    (_m demo_extern { demo_ready with _m_init := 0, _m_final := 0 }).1 = 0 ∧
    (_m demo_extern { demo_ready with _m_init := 3, _m_final := 3 }).1 = 3 := by
  decide!

theorem m_within_dimension_witness :
    (1 ≤ demo_ready._m_init ∧ demo_ready._m_init ≤ demo_ready._dim) ∧
    1 ≤ (_m demo_extern demo_ready).1 ∧ (_m demo_extern demo_ready).1 ≤ demo_ready._dim :=
  ⟨by decide!, m_within_dimension demo_extern demo_ready (by decide!) (by decide!) (by decide!)
    (by decide!) (by decide!) (by decide!)⟩

theorem demo_nth_element_spec : NthElementSpec demo_extern := by
  intro y l n _
  have hperm : (demo_nth_element l n (fun i1 i2 => decide (y i1 < y i2))).Perm l :=
    List.perm_insertionSort _ l
  refine ⟨hperm, ?_⟩
  intro a ha b hb
  have htotal : IsTotal ℕ (fun a b => decide (y b < y a) = false) :=
    ⟨fun a b => by
      simp only [decide_eq_false_iff_not, not_lt]
      exact le_total (y a) (y b)⟩
  have htrans : IsTrans ℕ (fun a b => decide (y b < y a) = false) :=
    ⟨fun a b c h1 h2 => by
      simp only [decide_eq_false_iff_not, not_lt] at h1 h2 ⊢
      exact le_trans h1 h2⟩
  have hsorted : (demo_nth_element l n (fun i1 i2 => decide (y i1 < y i2))).Sorted
      (fun a b => decide (y b < y a) = false) := List.sorted_insertionSort _ l
  have hsplit := List.take_append_drop n (demo_nth_element l n (fun i1 i2 => decide (y i1 < y i2)))
  unfold List.Sorted at hsorted
  rw [← hsplit, List.pairwise_append] at hsorted
  have := hsorted.2.2 a ha b hb
  simpa using this

theorem demo_rand01_spec : Rand01Spec demo_extern := by
  intro n
  have h7 : ((n % 7 : ℕ) : ℚ) ≤ 7 := by
    have : n % 7 < 7 := Nat.mod_lt n (by decide)
    exact_mod_cast this.le
  constructor
  · exact div_nonneg (Nat.cast_nonneg _) (by norm_num)
  · show ((n % 7 : ℕ) : ℚ) / 7 ≤ 1
    rw [div_le_one (by norm_num)]
    exact h7

theorem demo_fair : FairIndexDraws demo_extern 2 := by
  intro c r hr
  show ∃ j, j < 8 ∧ (c + j) % 2 = r
  by_cases h : c % 2 = r
  · exact ⟨0, by decide, by simpa using h⟩
  · exact ⟨1, by decide, by omega⟩

/-- C2 fails as stated: with the budget 3 and the default initial population
of 10 points in dimension 2, the initial batch alone performs 10 evaluations. -/
theorem optimize_exceeds_budget :
    ({ demo_fresh with _max_eval := 3 } : MVMO ℚ)._eval_counter = 0 ∧
    ({ demo_fresh with _max_eval := 3 } : MVMO ℚ)._dbx = [] ∧
    ({ demo_fresh with _max_eval := 3 } : MVMO ℚ)._dby = [] ∧
    ({ demo_fresh with _max_eval := 3 } : MVMO ℚ)._max_eval = 3 ∧
    (optimize demo_extern 3 { demo_fresh with _max_eval := 3 }).map
      (fun S => (S._eval_counter, S._dby.length)) = some (10, 10) := by
  decide!

theorem optimize_budget_witness :
    ∃ S', optimize demo_extern 100 demo_fresh = some S' ∧ S'._eval_counter = 100 ∧
      S'._dbx.length = 100 ∧ S'._dby.length = 100 :=
  (optimize_budget demo_extern demo_rand01_spec).1 demo_fresh 100 demo_fair
    ⟨rfl, rfl, rfl⟩ (by decide) (by decide!) (by decide!) (by decide) (by decide)

theorem archive_holds_smallest_witness :
    ∃ T, _archive demo_extern demo_ready = some T ∧
      ∃ sel : List ℕ, sel.length = demo_ready._archive_size ∧
        T._archive_x = sel.map (fun i => demo_ready._dbx.getD i []) ∧
        (sel.map (fun i => demo_ready._dby.getD i 0)).Perm
          ((demo_ready._dby.insertionSort (fun p q => p ≤ q)).take demo_ready._archive_size) := by
  have h := archive_holds_smallest demo_extern demo_nth_element_spec demo_ready
    (by decide!) (by decide!)
  obtain ⟨T, hT⟩ := h.2 (by decide!) (by decide!) (by decide!)
  obtain ⟨sel, h1, _, _, h4, _, h6⟩ := h.1 T hT
  exact ⟨T, hT, sel, h1, h4, h6⟩

/-! ## The archive step, dimension by dimension -/

theorem archive_stat_eq (O : Extern K) (fs : K) (S : MVMO K) (i : ℕ) (mv : K × K) :
    archive_stat O fs S i mv =
      if shape_value O fs S i mv > 0 then
        { S with
          _archive_mean := S._archive_mean.set i mv.1
          _archive_s := S._archive_s.set i (shape_value O fs S i mv)
          _archive_d := S._archive_d.set i (range_value O S i (shape_value O fs S i mv))
          _archive_s1 := S._archive_s1.set i (if S._best_y ≠ ⊤ then
            (if O.rand01 (S.rng + 1) < (0.5 : K) then shape_value O fs S i mv
              else (S._archive_d.set i (range_value O S i (shape_value O fs S i mv))).getD i 0)
            else 0)
          _archive_s2 := S._archive_s2.set i (if S._best_y ≠ ⊤ then
            (if O.rand01 (S.rng + 1) < (0.5 : K) then
              (S._archive_d.set i (range_value O S i (shape_value O fs S i mv))).getD i 0
              else shape_value O fs S i mv)
            else 0)
          rng := S.rng + 1 + 1 }
      else
        { S with
          _archive_mean := S._archive_mean.set i mv.1
          _archive_s := S._archive_s.set i (shape_value O fs S i mv)
          _archive_s1 := S._archive_s1.set i
            (if S._best_y ≠ ⊤ then shape_value O fs S i mv else 0)
          _archive_s2 := S._archive_s2.set i
            (if S._best_y ≠ ⊤ then shape_value O fs S i mv else 0) } := by
  unfold archive_stat
  lift_lets
  intro mean var s S1 r1 delta_d d src S2 r2 r S3
  have hs : s = shape_value O fs S i mv := rfl
  by_cases hpos : shape_value O fs S i mv > 0
  · rw [if_pos hpos]
    by_cases hu : O.rand01 (S.rng + 1) < (0.5 : K)
    · have hr : r = (s, S2._archive_d.getD i 0, r2.2) := by
        show (if s > 0 then _ else _) = _
        rw [if_pos (by rw [hs]; exact hpos)]
        exact if_pos hu
      simp only [S3, hr, if_pos hu]
      rfl
    · have hr : r = (S2._archive_d.getD i 0, s, r2.2) := by
        show (if s > 0 then _ else _) = _
        rw [if_pos (by rw [hs]; exact hpos)]
        exact if_neg hu
      simp only [S3, hr, if_neg hu]
      rfl
  · rw [if_neg hpos]
    have hr : r = (s, s, S1) := by
      show (if s > 0 then _ else _) = _
      rw [if_neg (by rw [hs]; exact hpos)]
    simp only [S3, hr]
    rfl

theorem SameAt.reflAt (i : ℕ) (S : MVMO K) : SameAt i S S := by
  constructor <;> rfl

theorem SameAt.transAt {i : ℕ} {S T U : MVMO K} (h1 : SameAt i S T) (h2 : SameAt i T U) :
    SameAt i S U := by
  constructor
  · exact h2.mean.trans h1.mean
  · exact h2.s.trans h1.s
  · exact h2.d.trans h1.d
  · exact h2.s1.trans h1.s1
  · exact h2.s2.trans h1.s2
  · exact h2.len_mean.trans h1.len_mean
  · exact h2.len_s.trans h1.len_s
  · exact h2.len_d.trans h1.len_d
  · exact h2.len_s1.trans h1.len_s1
  · exact h2.len_s2.trans h1.len_s2
  · exact h2.best_y.trans h1.best_y
  · exact h2.delta_d0.trans h1.delta_d0

theorem archive_stat_other (O : Extern K) (fs : K) (S : MVMO K) (i j : ℕ) (mv : K × K)
    (hj : j ≠ i) : SameAt j S (archive_stat O fs S i mv) := by
  rw [archive_stat_eq]
  by_cases hpos : shape_value O fs S i mv > 0
  · rw [if_pos hpos]
    constructor <;> first
      | exact List.getElem?_set_ne (Ne.symm hj)
      | exact List.length_set _ _ _
      | rfl
  · rw [if_neg hpos]
    constructor <;> first
      | exact List.getElem?_set_ne (Ne.symm hj)
      | exact List.length_set _ _ _
      | rfl

theorem archive_dim_other (O : Extern K) (fs : K) (S T : MVMO K) (i j : ℕ) (hj : j ≠ i)
    (h : archive_dim O fs S i = some T) : SameAt j S T := by
  unfold archive_dim at h
  simp only [Option.map_eq_some'] at h
  obtain ⟨mv, _, hT⟩ := h
  rw [← hT]
  exact archive_stat_other O fs S i j mv hj

theorem archive_loop_other (O : Extern K) (fs : K) (j : ℕ) :
    ∀ (l : List ℕ) (S T : MVMO K), j ∉ l → l.foldlM (archive_dim O fs) S = some T →
      SameAt j S T := by
  intro l
  induction l with
  | nil => intro S T _ h; simp at h; subst h; exact SameAt.reflAt j S
  | cons a l ih =>
    intro S T hj h
    simp only [List.foldlM_cons, Option.bind_eq_bind, Option.bind_eq_some] at h
    obtain ⟨U, hU, hT⟩ := h
    have hne : j ≠ a := fun h => hj (by rw [h]; exact List.mem_cons_self _ _)
    exact (archive_dim_other O fs S U a j hne hU).transAt
      (ih U T (fun h => hj (List.mem_cons_of_mem _ h)) hT)

theorem foldlM_append_some (g : MVMO K → ℕ → Option (MVMO K)) :
    ∀ (l1 l2 : List ℕ) (S T : MVMO K), (l1 ++ l2).foldlM g S = some T →
      ∃ U, l1.foldlM g S = some U ∧ l2.foldlM g U = some T := by
  intro l1
  induction l1 with
  | nil => intro l2 S T h; exact ⟨S, rfl, h⟩
  | cons a l1 ih =>
    intro l2 S T h
    simp only [List.cons_append, List.foldlM_cons, Option.bind_eq_bind, Option.bind_eq_some] at h
    obtain ⟨V, hV, hT⟩ := h
    obtain ⟨U, hU, hUT⟩ := ih l2 V T hT
    exact ⟨U, by simp only [List.foldlM_cons, Option.bind_eq_bind, hV, Option.some_bind, hU], hUT⟩

/-- What the loop over the dimensions does to dimension `i`: it reaches a state
`U` that still has the statistics of the start at `i`, applies `archive_stat`
there, and leaves the result at `i` untouched afterwards. -/
theorem archive_loop_at (O : Extern K) (fs : K) (n i : ℕ) (hi : i < n) (S T : MVMO K)
    (h : (List.range n).foldlM (archive_dim O fs) S = some T) :
    ∃ (U : MVMO K) (mv : K × K), SameAt i S U ∧ U._archive_x = S._archive_x ∧
      _mean_var_noeq (S._archive_x.map (fun col => col.getD i 0)) = some mv ∧
      SameAt i (archive_stat O fs U i mv) T := by
  obtain ⟨l1, l2, hsplit⟩ := List.append_of_mem (List.mem_range.mpr hi)
  have hnd := List.nodup_range n
  rw [hsplit] at hnd h
  have hnot1 : i ∉ l1 := by
    intro hmem
    have := (List.nodup_append.mp hnd).2.2
    exact this hmem (List.mem_cons_self _ _) 
  have hnot2 : i ∉ l2 := by
    have := (List.nodup_append.mp hnd).2.1
    exact (List.nodup_cons.mp this).1
  obtain ⟨U, hU, hrest⟩ := foldlM_append_some _ l1 (i :: l2) S T h
  simp only [List.foldlM_cons, Option.bind_eq_bind, Option.bind_eq_some] at hrest
  obtain ⟨V, hV, hT⟩ := hrest
  have hx : U._archive_x = S._archive_x :=
    foldlM_rel (fun S T => T._archive_x = S._archive_x) (fun _ => rfl)
      (fun _ _ _ h1 h2 => h2.trans h1) _ (archive_dim_archive_x O _) _ _ _ hU
  unfold archive_dim at hV
  simp only [Option.map_eq_some'] at hV
  obtain ⟨mv, hmv, hVeq⟩ := hV
  rw [hx] at hmv
  refine ⟨U, mv, archive_loop_other O fs i l1 S U hnot1 hU, hx, hmv, ?_⟩
  rw [hVeq]
  exact archive_loop_other O fs i l2 V T hnot2 hT

theorem getD_set_self (l : List K) (i : ℕ) (x : K) (h : i < l.length) :
    (l.set i x).getD i 0 = x := by
  rw [List.getD_eq_getElem?_getD, List.getElem?_set_self h]
  rfl

theorem getD_of_getElem? (l : List K) (i : ℕ) (x : K) (h : l[i]? = some x) : l.getD i 0 = x := by
  rw [List.getD_eq_getElem?_getD, h]
  rfl

theorem getElem?_eq_some_getD (l : List K) (i : ℕ) (h : i < l.length) :
    l[i]? = some (l.getD i 0) := by
  rw [List.getD_eq_getElem?_getD, List.getElem?_eq_getElem h]
  rfl

/-- The statistics that `archive_stat` stores at the dimension it treats. -/
theorem archive_stat_at (O : Extern K) (fs : K) (U : MVMO K) (i : ℕ) (mv : K × K)
    (h1 : i < U._archive_mean.length) (h2 : i < U._archive_s.length)
    (h3 : i < U._archive_d.length) (h4 : i < U._archive_s1.length)
    (h5 : i < U._archive_s2.length) :
    (archive_stat O fs U i mv)._archive_mean[i]? = some mv.1 ∧
    (archive_stat O fs U i mv)._archive_s[i]? = some (shape_value O fs U i mv) ∧
    (archive_stat O fs U i mv)._archive_d[i]? =
      some (if shape_value O fs U i mv > 0 then range_value O U i (shape_value O fs U i mv)
        else U._archive_d.getD i 0) ∧
    (archive_stat O fs U i mv)._archive_s1[i]? =
      some (if U._best_y ≠ ⊤ then
        (if shape_value O fs U i mv > 0 then
          (if O.rand01 (U.rng + 1) < (0.5 : K) then shape_value O fs U i mv
            else range_value O U i (shape_value O fs U i mv))
          else shape_value O fs U i mv)
        else 0) ∧
    (archive_stat O fs U i mv)._archive_s2[i]? =
      some (if U._best_y ≠ ⊤ then
        (if shape_value O fs U i mv > 0 then
          (if O.rand01 (U.rng + 1) < (0.5 : K) then range_value O U i (shape_value O fs U i mv)
            else shape_value O fs U i mv)
          else shape_value O fs U i mv)
        else 0) := by
  rw [archive_stat_eq]
  by_cases hpos : shape_value O fs U i mv > 0
  · simp only [if_pos hpos, getD_set_self _ _ _ h3]
    exact ⟨List.getElem?_set_self h1, List.getElem?_set_self h2, List.getElem?_set_self h3,
      List.getElem?_set_self h4, List.getElem?_set_self h5⟩
  · simp only [if_neg hpos]
    exact ⟨List.getElem?_set_self h1, List.getElem?_set_self h2, getElem?_eq_some_getD _ _ h3,
      List.getElem?_set_self h4, List.getElem?_set_self h5⟩

theorem fs_same (O : Extern K) (i : ℕ) (S : MVMO K) : SameAt i S (_fs O S) := by
  unfold _fs
  lift_lets
  intro alpha fs_star r1 r2
  split_ifs <;> constructor <;> rfl

theorem archive_copy_same (O : Extern K) (i : ℕ) (S : MVMO K) : SameAt i S (archive_copy O S) := by
  constructor <;> rfl

/-- What `_archive` does to dimension `i`: from a state `U` that has the
statistics of `S` at `i`, it stores the statistics of `archive_stat` for the
mean and variance of row `i` of the refreshed archive. -/
theorem archive_at (O : Extern K) (S T : MVMO K) (hT : _archive O S = some T) (i : ℕ)
    (hi : i < S._dim) :
    ∃ (U : MVMO K) (mv : K × K), SameAt i S U ∧
      _mean_var_noeq ((archive_copy O S)._archive_x.map (fun col => col.getD i 0)) = some mv ∧
      SameAt i (archive_stat O (_fs O (archive_copy O S))._fshape U i mv) T := by
  obtain ⟨_, _, hstats⟩ := archive_guards O S T hT
  unfold archive_stats at hstats
  have hdim : (_fs O (archive_copy O S))._dim = S._dim :=
    ((archive_copy_frame O S).trans (fs_frame O _)).dim
  simp only [hdim] at hstats
  obtain ⟨U, mv, hU, _, hmv, hUT⟩ := archive_loop_at O _ S._dim i hi _ T hstats
  rw [fs_archive_x] at hmv
  exact ⟨U, mv, ((archive_copy_same O i S).transAt (fs_same O i _)).transAt hU, hmv, hUT⟩

/-! ## Mean and variance of a row -/

theorem sum_sq_dev (m : K) (l : List K) :
    (l.map (fun x => (x - m) ^ 2)).sum =
      (l.map (fun x => x ^ 2)).sum - 2 * m * l.sum + (l.length : K) * m ^ 2 := by
  induction l with
  | nil => simp
  | cons a l ih =>
    simp only [List.map_cons, List.sum_cons, List.length_cons, Nat.cast_add, Nat.cast_one, ih]
    ring

theorem pop_var_le_quarter (l : List K) (hl : l ≠ []) (h01 : ∀ x ∈ l, 0 ≤ x ∧ x ≤ 1) :
    (l.map (fun x => (x - l.sum / (l.length : K)) ^ 2)).sum / (l.length : K) ≤ 1 / 4 := by
  have hpos : (0 : K) < (l.length : K) := by
    exact_mod_cast List.length_pos.mpr hl
  have hsq : (l.map (fun x => x ^ 2)).sum ≤ l.sum := by
    have := List.sum_le_sum (l := l) (f := fun x : K => x ^ 2) (g := fun x => x) (by
      intro x hx
      have h := h01 x hx
      show x ^ 2 ≤ x
      nlinarith [mul_nonneg h.1 (sub_nonneg.mpr h.2)])
    simpa using this
  have hsum : l.sum = (l.length : K) * (l.sum / (l.length : K)) := by
    field_simp
  rw [sum_sq_dev, div_le_iff₀ hpos]
  generalize l.sum / (l.length : K) = m at hsum ⊢
  rw [hsum] at hsq ⊢
  nlinarith [mul_nonneg hpos.le (sq_nonneg (m - 1 / 2))]

theorem noeq_loop_mem (xs : List K) : ∀ (prev x : K), x ∈ noeq_loop prev xs → x ∈ xs := by
  induction xs with
  | nil => intro prev x h; simp [noeq_loop] at h
  | cons a xs ih =>
    intro prev x h
    simp only [noeq_loop] at h
    split_ifs at h
    · rcases List.mem_cons.mp h with h | h
      · rw [h]; exact List.mem_cons_self _ _
      · exact List.mem_cons_of_mem _ (ih a x h)
    · exact List.mem_cons_of_mem _ (ih a x h)

theorem mean_between (l : List K) (hl : l ≠ []) (lo hi : K) (h : ∀ x ∈ l, lo ≤ x ∧ x ≤ hi) :
    lo ≤ l.sum / (l.length : K) ∧ l.sum / (l.length : K) ≤ hi := by
  have hpos : (0 : K) < (l.length : K) := by
    exact_mod_cast List.length_pos.mpr hl
  have h1 := List.card_nsmul_le_sum l lo (fun x hx => (h x hx).1)
  have h2 := List.sum_le_card_nsmul l hi (fun x hx => (h x hx).2)
  rw [nsmul_eq_mul] at h1 h2
  constructor
  · rw [le_div_iff₀ hpos]
    linarith
  · rw [div_le_iff₀ hpos]
    linarith

theorem mean_sq_nonneg (l : List K) (m : K) :
    0 ≤ (l.map (fun x => (x - m) ^ 2)).sum / (l.length : K) := by
  apply div_nonneg
  · apply List.sum_nonneg
    intro y hy
    obtain ⟨x, _, rfl⟩ := List.mem_map.mp hy
    exact sq_nonneg _
  · exact Nat.cast_nonneg _

theorem mean_var_noeq_perm (xs ys : List K) (h : ys.Perm xs) :
    _mean_var_noeq ys = _mean_var_noeq xs := by
  have hs : ys.insertionSort (fun p q => p ≤ q) = xs.insertionSort (fun p q => p ≤ q) :=
    List.eq_of_perm_of_sorted
      (((List.perm_insertionSort _ ys).trans h).trans (List.perm_insertionSort _ xs).symm)
      (List.sorted_insertionSort _ ys) (List.sorted_insertionSort _ xs)
  unfold _mean_var_noeq
  rw [hs]

theorem mean_var_noeq_cases (xs : List K) (hne : xs ≠ []) :
    ∃ (v0 : K) (kept : List K), v0 ∈ xs ∧ kept ≠ [] ∧ (∀ x ∈ kept, x ∈ xs) ∧
      (_mean_var_noeq xs = some (v0, 0) ∨
        _mean_var_noeq xs = some (kept.sum / (kept.length : K),
          (kept.map (fun x => (x - kept.sum / (kept.length : K)) ^ 2)).sum / (kept.length : K))) := by
  cases hsort : xs.insertionSort (fun p q => p ≤ q) with
  | nil =>
    exfalso
    apply hne
    have := List.length_insertionSort (fun p q : K => p ≤ q) xs
    rw [hsort] at this
    exact List.length_eq_zero.mp this.symm
  | cons v0 vs =>
    have hmem : ∀ x ∈ v0 :: vs, x ∈ xs := by
      intro x hx
      rw [← hsort] at hx
      exact (List.perm_insertionSort _ xs).mem_iff.mp hx
    refine ⟨v0, v0 :: noeq_loop v0 vs, hmem v0 (List.mem_cons_self _ _), List.cons_ne_nil _ _,
      ?_, ?_⟩
    · intro x hx
      rcases List.mem_cons.mp hx with h | h
      · rw [h]
        exact hmem v0 (List.mem_cons_self _ _)
      · exact hmem x (List.mem_cons_of_mem _ (noeq_loop_mem vs v0 x h))
    · unfold _mean_var_noeq
      rw [hsort]
      simp only []
      split_ifs
      · exact Or.inl rfl
      · exact Or.inr rfl

/-- C20: for a non-empty row `_mean_var_noeq` returns a mean that lies between
any lower and upper bound of the values, hence between their minimum and their
maximum (and in `[0, 1]` when all values are), a variance that is not
negative, and the same result for every rearrangement of the row. -/
theorem mean_var_noeq_bounds (xs : List K) (hne : xs ≠ []) :
    ∃ mean var : K, _mean_var_noeq xs = some (mean, var) ∧
      (∀ lo hi : K, (∀ x ∈ xs, lo ≤ x ∧ x ≤ hi) → lo ≤ mean ∧ mean ≤ hi) ∧
      (∀ a b : K, xs.minimum = (a : WithTop K) → xs.maximum = (b : WithBot K) →
        a ≤ mean ∧ mean ≤ b) ∧
      0 ≤ var ∧
      ∀ ys : List K, ys.Perm xs → _mean_var_noeq ys = some (mean, var) := by
  obtain ⟨v0, kept, hv0, hkept, hmem, hres⟩ := mean_var_noeq_cases xs hne
  have key : ∃ mean var : K, _mean_var_noeq xs = some (mean, var) ∧
      (∀ lo hi : K, (∀ x ∈ xs, lo ≤ x ∧ x ≤ hi) → lo ≤ mean ∧ mean ≤ hi) ∧ 0 ≤ var := by
    rcases hres with h | h
    · exact ⟨v0, 0, h, fun lo hi hb => hb v0 hv0, le_refl _⟩
    · exact ⟨_, _, h, fun lo hi hb => mean_between kept hkept lo hi (fun x hx => hb x (hmem x hx)),
        mean_sq_nonneg kept _⟩
  obtain ⟨mean, var, hmv, hb, hvar⟩ := key
  refine ⟨mean, var, hmv, hb, ?_, hvar, ?_⟩
  · intro a b ha hb'
    exact hb a b (fun x hx => ⟨List.minimum_le_of_mem hx ha, List.le_maximum_of_mem hx hb'⟩)
  · intro ys hys
    rw [mean_var_noeq_perm xs ys hys]
    exact hmv

theorem mean_var_noeq_bounds_witness :
    ∃ mean var : ℚ, _mean_var_noeq [1, 3, 1, 2] = some (mean, var) ∧
      (1 ≤ mean ∧ mean ≤ 3) ∧ 0 ≤ var ∧ _mean_var_noeq [3, 2, 1, 1] = some (mean, var) :=
  match mean_var_noeq_bounds ([1, 3, 1, 2] : List ℚ) (by decide) with
  | ⟨mean, var, h1, h2, _, h4, h5⟩ =>
    ⟨mean, var, h1, h2 1 3 (by decide!), h4, h5 [3, 2, 1, 1] (by decide)⟩

/-- C14 fails as stated: on `chain_row` the code retains the value 0 alone
and returns `(0, 0)`, although the removed value `6/5 * epsilon` is further
than machine epsilon from the retained value; the de-duplication of the
specification retains two values and gives a positive variance. -/
theorem mean_var_noeq_chain :
    _mean_var_noeq chain_row = some (0, 0) ∧
    noeq_loop (0 : ℚ) [3 / 5 * epsilon, 6 / 5 * epsilon] = [] ∧
    |6 / 5 * epsilon - (0 : ℚ)| > epsilon ∧
    mean_var_as_specified chain_row =
      some (3 / 5 * epsilon, 9 / 25 * epsilon ^ 2) ∧
    _mean_var_noeq chain_row ≠ mean_var_as_specified chain_row := by
  decide!

theorem noeq_loop_eq_filter (xs : List K) :
    ∀ prev : K, noeq_loop prev xs =
      ((List.zip (prev :: xs) xs).filter (fun p => decide (|p.2 - p.1| > epsilon))).map
        Prod.snd := by
  induction xs with
  | nil => intro prev; simp [noeq_loop]
  | cons x xs ih =>
    intro prev
    simp only [noeq_loop, List.zip_cons_cons, List.filter_cons]
    by_cases h : |x - prev| > epsilon
    · simp only [h, if_true, decide_True, List.map_cons]
      rw [ih x]
    · simp only [h, if_false, decide_False]
      rw [ih x]
      simp

/-- C14, as the code has it: a sorted value is removed when it is within
machine epsilon of its predecessor in the sorted row (retained or not); on
the list `kept` of the remaining values the result is `(v, 0)` for a single
value `v` and otherwise the mean and the population variance. -/
theorem mean_var_noeq_by_predecessor (xs : List K) (hne : xs ≠ []) :
    ∃ (v0 : K) (vs kept : List K),
      xs.insertionSort (fun p q => p ≤ q) = v0 :: vs ∧
      kept = v0 :: ((List.zip (v0 :: vs) vs).filter
        (fun p => decide (|p.2 - p.1| > epsilon))).map Prod.snd ∧
      (kept.length = 1 → _mean_var_noeq xs = some (v0, 0)) ∧
      (kept.length ≠ 1 → _mean_var_noeq xs =
        some (kept.sum / (kept.length : K),
          (kept.map (fun x => (x - kept.sum / (kept.length : K)) ^ 2)).sum / (kept.length : K))) := by
  cases hsort : xs.insertionSort (fun p q => p ≤ q) with
  | nil =>
    exfalso
    apply hne
    have := List.length_insertionSort (fun p q : K => p ≤ q) xs
    rw [hsort] at this
    exact List.length_eq_zero.mp this.symm
  | cons v0 vs =>
    refine ⟨v0, vs, _, rfl, rfl, ?_, ?_⟩
    · intro hlen
      unfold _mean_var_noeq
      rw [hsort]
      simp only [noeq_loop_eq_filter]
      rw [if_pos hlen]
    · intro hlen
      unfold _mean_var_noeq
      rw [hsort]
      simp only [noeq_loop_eq_filter]
      rw [if_neg hlen]

theorem mean_var_noeq_by_predecessor_witness :
    ∃ (v0 : ℚ) (vs kept : List ℚ),
      chain_row.insertionSort (fun p q => p ≤ q) = v0 :: vs ∧
      kept = v0 :: ((List.zip (v0 :: vs) vs).filter
        (fun p => decide (|p.2 - p.1| > epsilon))).map Prod.snd ∧
      (kept.length = 1 → _mean_var_noeq chain_row = some (v0, 0)) :=
  match mean_var_noeq_by_predecessor chain_row (by decide) with
  | ⟨v0, vs, kept, h1, h2, h3, _⟩ => ⟨v0, vs, kept, h1, h2, h3⟩

/-! ## The mutation count and the mapping, continued -/

/-- C11 fails as stated: in dimension 6 with the default settings (`m_init = 1`,
`m_final = 3`), at a quarter of the budget and with the draw `4/7`, the
real-valued target is `3/2` and the claimed count is 2, but `_m` truncates the
target to 1 and returns 1. -/
theorem m_truncates_target :
    demo6_quarter._m_init = 1 ∧ demo6_quarter._m_final = 3 ∧
    (demo6_quarter._eval_counter : ℚ) / (demo6_quarter._max_eval : ℚ) = 1 / 4 ∧
    demo_extern.rand01 demo6_quarter.rng = 4 / 7 ∧
    m_as_specified 1 3 (1 / 4 : ℚ) (4 / 7) = 2 ∧
    (_m demo_extern demo6_quarter).1 = 1 := by
  decide!

/-- C11, as the code has it: `_m` truncates twice, first the interpolated
target `m_star` (a `size_t` variable) and then the drawn value; it returns the
count of the specification whenever the interpolated target is a whole number. -/
theorem m_truncates_twice (O : Extern K) (S : MVMO K) :
    (_m O S).1 =
      toSize ((S._m_final : K) + O.rand01 S.rng *
        (((toSize ((S._m_init : K) - (S._eval_counter : K) / (S._max_eval : K) *
          ((S._m_init : K) - (S._m_final : K))) : ℕ) : K) - (S._m_final : K))) ∧
    (∀ k : ℕ, (S._m_init : K) - (S._eval_counter : K) / (S._max_eval : K) *
        ((S._m_init : K) - (S._m_final : K)) = (k : K) →
      (_m O S).1 = m_as_specified S._m_init S._m_final
        ((S._eval_counter : K) / (S._max_eval : K)) (O.rand01 S.rng)) := by
  constructor
  · unfold _m _rand01
    simp only [pow_one]
  · intro k hk
    unfold _m _rand01 m_as_specified
    simp only [pow_one, hk]
    unfold toSize
    rw [Nat.floor_natCast]

theorem m_truncates_twice_witness :
    (demo6_fresh._m_init : ℚ) - (demo6_fresh._eval_counter : ℚ) / (demo6_fresh._max_eval : ℚ) *
        ((demo6_fresh._m_init : ℚ) - (demo6_fresh._m_final : ℚ)) = ((1 : ℕ) : ℚ) ∧
    (_m demo_extern demo6_fresh).1 = m_as_specified demo6_fresh._m_init demo6_fresh._m_final
        ((demo6_fresh._eval_counter : ℚ) / (demo6_fresh._max_eval : ℚ))
        ( demo_extern.rand01 demo6_fresh.rng) :=
  ⟨by decide!, (m_truncates_twice demo_extern demo6_fresh).2 1 (by decide!)⟩

/-- C16: with both shaping values zero the mutated-coordinate map is the
identity on the draw, and while no finite best value exists the archive step
stores zero for both shaping values of the dimension it treats. -/
theorem mapped_identity_without_shaping (O : Extern K) :
    (∀ xbar u : K, mapped O xbar 0 0 u = u) ∧
    (∀ (fs : K) (S : MVMO K) (i : ℕ) (mv : K × K), S._best_y = ⊤ →
      i < S._archive_s1.length → i < S._archive_s2.length →
      (archive_stat O fs S i mv)._archive_s1[i]? = some 0 ∧
      (archive_stat O fs S i mv)._archive_s2[i]? = some 0) := by
  constructor
  · intro xbar u
    have a7 : (1.0 : K) = 1 := by norm_num
    unfold mapped _hfunc
    simp only [a7, mul_zero]
    ring
  · intro fs S i mv hy h1 h2
    unfold archive_stat
    lift_lets
    intro mean var s S1 r1 delta_d d src S2 r2 r S3
    have hr : S3 = if s > 0 then r2.2 else S1 := by
      show r.2.2 = _
      simp only [r]
      split_ifs <;> rfl
    have hy3 : S3._best_y = ⊤ := by
      rw [hr]
      split_ifs <;> exact hy
    have hl1 : S3._archive_s1 = S._archive_s1 := by
      rw [hr]
      split_ifs <;> rfl
    have hl2 : S3._archive_s2 = S._archive_s2 := by
      rw [hr]
      split_ifs <;> rfl
    simp only [hy3, ne_eq, not_true_eq_false, if_false, hl1, hl2]
    exact ⟨List.getElem?_set_self h1, List.getElem?_set_self h2⟩

/-! ## The mutated dimensions -/

theorem length_set_insert (x : ℕ) (s : List ℕ) :
    s.length ≤ (set_insert x s).length ∧ (set_insert x s).length ≤ s.length + 1 := by
  unfold set_insert
  split_ifs
  · exact ⟨le_refl _, Nat.le_succ _⟩
  · rw [List.orderedInsert_length]
    exact ⟨Nat.le_succ _, le_refl _⟩

theorem pick_loop_length (O : Extern K) (n m : ℕ) :
    ∀ (fuel c : ℕ) (picked : List ℕ) (r : List ℕ × ℕ), picked.length ≤ m →
      pick_loop O n m fuel c picked = some r → r.1.length = m := by
  intro fuel
  induction fuel with
  | zero =>
    intro c picked r hle h
    simp only [pick_loop] at h
    split_ifs at h with hlt
    simp only [Option.some.injEq] at h
    rw [← h]
    show picked.length = m
    omega
  | succ fuel ih =>
    intro c picked r hle h
    simp only [pick_loop] at h
    split_ifs at h with hlt
    · exact ih (c + 1) _ r (by have := (length_set_insert (O.i_distr c % n) picked).2; omega) h
    · simp only [Option.some.injEq] at h
      rw [← h]
      show picked.length = m
      omega

theorem pick_length (O : Extern K) (S : MVMO K) (n m : ℕ) (p : List ℕ × MVMO K)
    (h : _pick_from_seq O S n m = some p) : m ≤ n ∧ p.1.length = m := by
  unfold _pick_from_seq at h
  split_ifs at h with hm
  simp only [Option.map_eq_some'] at h
  obtain ⟨r, hr, hp⟩ := h
  rw [← hp]
  exact ⟨hm, pick_loop_length O n m _ _ [] r (Nat.zero_le _) hr⟩

/-- C18: with the default mutation-count settings in dimension `d >= 1`, while
the counter is below the budget the count returned by `_m` lies between 1 and
`d`; so the assertion of `_pick_from_seq` holds, the selection returns when the
index draws are fair, and whenever it returns it holds at least one index. -/
theorem default_count_within_dimension (O : Extern K) (S : MVMO K)
    (hminit : S._m_init = toSize (max (1 : K) ((S._dim : K) / 6)))
    (hmfinal : S._m_final = toSize (max (1 : K) ((S._dim : K) / 2)))
    (hd : 1 ≤ S._dim) (hcount : S._eval_counter < S._max_eval)
    (hu0 : 0 ≤ O.rand01 S.rng) (hu1 : O.rand01 S.rng ≤ 1) :
    (1 ≤ (_m O S).1 ∧ (_m O S).1 ≤ S._dim) ∧
    (FairIndexDraws O S._dim → ∃ p, _pick_from_seq O (_m O S).2 S._dim (_m O S).1 = some p) ∧
    (∀ p, _pick_from_seq O (_m O S).2 S._dim (_m O S).1 = some p → 1 ≤ p.1.length) := by
  have hm := m_bounds O S 1 S._dim
    (by rw [hminit]; exact default_m_bounds S._dim hd 6 (by norm_num))
    (by rw [hmfinal]; exact default_m_bounds S._dim hd 2 (by norm_num))
    (by omega) (by omega) hu0 hu1
  refine ⟨hm, ?_, ?_⟩
  · intro hfair
    exact pick_isSome O _ S._dim _ hfair hm.2
  · intro p hp
    rw [(pick_length O _ _ _ p hp).2]
    exact hm.1

theorem default_count_within_dimension_witness :
    (1 ≤ (_m demo_extern demo_ready).1 ∧ (_m demo_extern demo_ready).1 ≤ demo_ready._dim) ∧
    ∃ p, _pick_from_seq demo_extern (_m demo_extern demo_ready).2 demo_ready._dim
      (_m demo_extern demo_ready).1 = some p :=
  ⟨(default_count_within_dimension demo_extern demo_ready (by decide!) (by decide!) (by decide!)
      (by decide!) (by decide!) (by decide!)).1,
    (default_count_within_dimension demo_extern demo_ready (by decide!) (by decide!) (by decide!)
      (by decide!) (by decide!) (by decide!)).2.1
      (by rw [show demo_ready._dim = 2 by decide!]; exact demo_fair)⟩

/-! ## The number of evaluations of a run -/

theorem step_counter (O : Extern K) (S S' : MVMO K) (hstep : optimize_one_step O S = some S') :
    S'._eval_counter = S._eval_counter + 1 ∧ S'._max_eval = S._max_eval ∧
      S'._dbx.length = S._dbx.length + 1 ∧ S'._dby.length = S._dby.length + 1 := by
  obtain ⟨S1, T, x, hseed, hfr, hS'⟩ := step_frame O S S' hstep
  have h1 : S1._eval_counter = S._eval_counter ∧ S1._max_eval = S._max_eval ∧
      S1._dbx = S._dbx ∧ S1._dby = S._dby := by
    rcases hseed with ⟨_, rfl⟩ | ⟨_, c, rest, _, rfl⟩ <;> exact ⟨rfl, rfl, rfl, rfl⟩
  rw [hS', run_func_eval_counter, (run_func_settings T x).2.1, run_func_dbx, run_func_dby,
    hfr.eval_counter, hfr.max_eval, hfr.dbx, hfr.dby, h1.1, h1.2.1, h1.2.2.1, h1.2.2.2]
  simp

theorem loop_counter (O : Extern K) :
    ∀ (fuel : ℕ) (S S' : MVMO K), optimize_loop O fuel S = some S' →
      S'._eval_counter = max S._eval_counter S._max_eval ∧
      S'._dby.length = S._dby.length + (S'._eval_counter - S._eval_counter) := by
  intro fuel
  induction fuel with
  | zero =>
    intro S S' h
    simp only [optimize_loop] at h
    split_ifs at h with hlt
    simp only [Option.some.injEq] at h
    rw [← h]
    exact ⟨(max_eq_left (by omega)).symm, by simp⟩
  | succ n ih =>
    intro S S' h
    simp only [optimize_loop] at h
    split_ifs at h with hlt
    · simp only [Option.bind_eq_some] at h
      obtain ⟨U, hU, hS'⟩ := h
      obtain ⟨c1, c2, _, c4⟩ := step_counter O S U hU
      obtain ⟨h1, h2⟩ := ih U S' hS'
      rw [c1, c2] at h1
      rw [c1, c4] at h2
      have hge : S._eval_counter + 1 ≤ S'._eval_counter := by
        rw [h1]
        exact le_max_left _ _
      refine ⟨?_, by omega⟩
      rw [h1, max_eq_right (by omega), max_eq_right (by omega)]
    · simp only [Option.some.injEq] at h
      rw [← h]
      exact ⟨(max_eq_left (by omega)).symm, by simp⟩

theorem initialize_counter (O : Extern K) (S : MVMO K) :
    ( _initialize O (_init_archive S))._eval_counter =
      S._eval_counter + max S._num_init S._archive_size ∧
    ( _initialize O (_init_archive S))._dby.length =
      S._dby.length + max S._num_init S._archive_size ∧
    ( _initialize O (_init_archive S))._max_eval = S._max_eval := by
  obtain ⟨S1, xs, hfr, hxs, _, hinitial⟩ := initialize_eq O (_init_archive S)
  have hreach := reach_counter O S1 _ _ (reach_batch O S1 xs 0 S1 Reach.init)
  rw [← hinitial, hfr.eval_counter, hfr.dbx, hfr.dby, hxs] at hreach
  have hmax := (run_func_batch_settings xs S1).2.1
  rw [← hinitial, hfr.max_eval] at hmax
  simp only [Nat.zero_add] at hreach
  exact ⟨hreach.1, hreach.2.2, hmax⟩

/-- C17: on a fresh optimizer the initial batch performs
`max(num_init, archive_size)` evaluations whatever the budget is, a step of
the loop adds exactly one evaluation, and a run that returns has performed
`max(max_evaluations, max(num_init, archive_size))` evaluations. The run does
return: at once when the initial batch has used up the budget, and otherwise
with enough fuel when the archive has a column, the mutation-count settings
lie between 1 and the dimension and the index draws are fair. -/
theorem optimize_evaluation_count (O : Extern K) (S : MVMO K)
    (hfresh : S._eval_counter = 0 ∧ S._dbx = [] ∧ S._dby = []) :
    (( _initialize O (_init_archive S))._eval_counter = max S._num_init S._archive_size ∧
      ( _initialize O (_init_archive S))._dby.length = max S._num_init S._archive_size) ∧
    (∀ T T' : MVMO K, optimize_one_step O T = some T' →
      T'._eval_counter = T._eval_counter + 1 ∧ T'._dby.length = T._dby.length + 1) ∧
    (∀ (fuel : ℕ) (S' : MVMO K), optimize O fuel S = some S' →
      S'._eval_counter = max S._max_eval (max S._num_init S._archive_size) ∧
      S'._dby.length = max S._max_eval (max S._num_init S._archive_size)) ∧
    (S._max_eval ≤ max S._num_init S._archive_size →
      ∀ fuel : ℕ, ∃ S', optimize O fuel S = some S') ∧
    (Rand01Spec O → FairIndexDraws O S._dim → 1 ≤ S._archive_size →
      1 ≤ S._m_init ∧ S._m_init ≤ S._dim → 1 ≤ S._m_final ∧ S._m_final ≤ S._dim →
      ∀ fuel : ℕ, S._max_eval ≤ fuel → ∃ S', optimize O fuel S = some S') := by
  obtain ⟨i1, i2, i3⟩ := initialize_counter O S
  rw [hfresh.1, Nat.zero_add] at i1
  rw [hfresh.2.2, List.length_nil, Nat.zero_add] at i2
  refine ⟨⟨i1, i2⟩, ?_, ?_, ?_, ?_⟩
  · intro T T' h
    exact ⟨(step_counter O T T' h).1, (step_counter O T T' h).2.2.2⟩
  · intro fuel S' h
    unfold optimize at h
    obtain ⟨h1, h2⟩ := loop_counter O fuel _ S' h
    rw [i1, i3] at h1
    rw [i1, i2] at h2
    have hge : max S._num_init S._archive_size ≤ S'._eval_counter := by
      rw [h1]
      exact le_max_left _ _
    have hlen : S'._dby.length = S'._eval_counter := by omega
    rw [hlen, h1]
    exact ⟨max_comm _ _, max_comm _ _⟩
  · intro hle fuel
    unfold optimize
    have hnot : ¬ ( _initialize O (_init_archive S))._eval_counter <
        ( _initialize O (_init_archive S))._max_eval := by
      rw [i1, i3]
      omega
    cases fuel with
    | zero => exact ⟨ _initialize O (_init_archive S), by simp only [optimize_loop, if_neg hnot]⟩
    | succ n => exact ⟨ _initialize O (_init_archive S), by simp only [optimize_loop, if_neg hnot]⟩
  · intro hrand hfair harch hinit hfinal fuel hfuel
    obtain ⟨S', hS', _⟩ := optimize_terminates O hrand S hfair hfresh harch hinit hfinal fuel hfuel
    exact ⟨S', hS'⟩

theorem optimize_evaluation_count_witness :
    ∃ S', optimize demo_extern 100 demo_fresh = some S' ∧
      S'._eval_counter = max demo_fresh._max_eval (max demo_fresh._num_init demo_fresh._archive_size) :=
  match (optimize_evaluation_count demo_extern demo_fresh ⟨rfl, rfl, rfl⟩).2.2.2.2
      demo_rand01_spec demo_fair (by decide) (by decide!) (by decide!) 100 (by decide) with
  | ⟨S', hS'⟩ => ⟨S', hS',
      ((optimize_evaluation_count demo_extern demo_fresh ⟨rfl, rfl, rfl⟩).2.2.1 100 S' hS').1⟩

/-! ## The candidate of a step -/

theorem mutate_other (O : Extern K) (acc : List K × MVMO K) (idx j : ℕ) (hj : j ≠ idx) :
    (mutate O acc idx).1[j]? = acc.1[j]? ∧ (mutate O acc idx).1.length = acc.1.length := by
  unfold mutate
  lift_lets
  intro new_x S xbar s1 s2 r v r2
  have hset : ∀ w : K, (new_x.set idx w)[j]? = new_x[j]? ∧ (new_x.set idx w).length = new_x.length :=
    fun w => ⟨List.getElem?_set_ne (Ne.symm hj), List.length_set _ _ _⟩
  split_ifs <;> exact hset _

theorem mutate_foldl_other (O : Extern K) (j : ℕ) :
    ∀ (l : List ℕ) (acc : List K × MVMO K), j ∉ l →
      (l.foldl (mutate O) acc).1[j]? = acc.1[j]? ∧
      (l.foldl (mutate O) acc).1.length = acc.1.length := by
  intro l
  induction l with
  | nil => intro acc _; exact ⟨rfl, rfl⟩
  | cons a l ih =>
    intro acc hj
    simp only [List.foldl_cons]
    have hne : j ≠ a := fun h => hj (by rw [h]; exact List.mem_cons_self _ _)
    obtain ⟨h1, h2⟩ := ih (mutate O acc a) (fun h => hj (List.mem_cons_of_mem _ h))
    obtain ⟨h3, h4⟩ := mutate_other O acc a j hne
    exact ⟨h1.trans h3, h2.trans h4⟩

theorem mutate_foldl_length (O : Extern K) :
    ∀ (l : List ℕ) (acc : List K × MVMO K), (l.foldl (mutate O) acc).1.length = acc.1.length := by
  intro l
  induction l with
  | nil => intro acc; rfl
  | cons a l ih =>
    intro acc
    simp only [List.foldl_cons]
    rw [ih]
    unfold mutate
    lift_lets
    intro new_x S xbar s1 s2 r v r2
    split_ifs <;> exact List.length_set _ _ _

theorem scale_congr (S T : MVMO K) (h1 : T._lb = S._lb) (h2 : T._ub = S._ub) (x : List K) :
    T._scale x = S._scale x := by
  unfold _scale
  rw [h1, h2]

/-- C15: the candidate that `optimize_one_step` evaluates is the normalized
current best (the best point of `S`, or the first record while no finite best
value exists) rewritten by the mutation loop at the indices that
`_pick_from_seq` returned in this step; it agrees with the normalized current
best on every other index, and the step adds exactly this one record to the
history. -/
theorem candidate_keeps_unchosen (O : Extern K) (S S' : MVMO K)
    (h : optimize_one_step O S = some S') :
    ∃ (S1 S2 T : MVMO K) (chosen : List ℕ) (x : List K),
      ((S._best_y ≠ ⊤ ∧ S1 = S) ∨
        (S._best_y = ⊤ ∧ ∃ c rest, S._dbx = c :: rest ∧
          S1 = { S with _best_x := S._scale_back c })) ∧
      _archive O S1 = some S2 ∧
      _pick_from_seq O (_m O S2).2 (_m O S2).2._dim (_m O S2).1 = some (chosen, T) ∧
      chosen.length = (_m O S2).1 ∧
      x = (chosen.foldl (mutate O) (S._scale S1._best_x, T)).1 ∧
      x.length = (S._scale S1._best_x).length ∧
      (∀ j, j ∉ chosen → x[j]? = (S._scale S1._best_x)[j]?) ∧
      S'._dbx = S._dbx ++ [x] ∧ S'._dby = S._dby ++ [S._f (S._scale_back x)] ∧
      S'._eval_counter = S._eval_counter + 1 := by
  obtain ⟨S1, S2, p, hseed, harch, hpick, hS'⟩ := step_unfold O S S' h
  have h1 := archive_frame O S1 S2 harch
  have h2 := m_frame O S2
  have h3 := pick_frame O _ _ _ p hpick
  have h4 := mutate_foldl_frame O p.1 (p.2._scale p.2._best_x, p.2)
  have hp : Frame S1 p.2 := h1.trans (h2.trans h3)
  have hT : Frame S1 (p.1.foldl (mutate O) (p.2._scale p.2._best_x, p.2)).2 := hp.trans h4
  have hS1 : S1._lb = S._lb ∧ S1._ub = S._ub ∧ S1._f = S._f ∧ S1._dbx = S._dbx ∧
      S1._dby = S._dby ∧ S1._eval_counter = S._eval_counter := by
    rcases hseed with ⟨_, rfl⟩ | ⟨_, c, rest, _, rfl⟩ <;> exact ⟨rfl, rfl, rfl, rfl, rfl, rfl⟩
  obtain ⟨e1, e2, e3, e4, e5, e6⟩ := hS1
  have hstart : p.2._scale p.2._best_x = S._scale S1._best_x := by
    rw [hp.best_x]
    exact scale_congr S p.2 (hp.lb.trans e1) (hp.ub.trans e2) _
  rw [hstart] at hS' hT
  refine ⟨S1, S2, p.2, p.1, (p.1.foldl (mutate O) (S._scale S1._best_x, p.2)).1,
    hseed, harch, hpick, (pick_length O _ _ _ p hpick).2, rfl, ?_, ?_, ?_, ?_, ?_⟩
  · rw [mutate_foldl_length]
  · intro j hj
    exact (mutate_foldl_other O j p.1 _ hj).1
  · rw [hS', run_func_dbx, hT.dbx, e4]
  · rw [hS', run_func_dby, hT.dby, e5, hT.f, e3,
      scale_back_congr S _ (hT.lb.trans e1) (hT.ub.trans e2)]
  · rw [hS', run_func_eval_counter, hT.eval_counter, e6]

theorem candidate_keeps_unchosen_witness :
    ∃ (S' S2 T : MVMO ℚ) (chosen : List ℕ) (x : List ℚ),
      optimize_one_step demo_extern demo_ready = some S' ∧
      _archive demo_extern demo_ready = some S2 ∧
      _pick_from_seq demo_extern (_m demo_extern S2).2 (_m demo_extern S2).2._dim
        (_m demo_extern S2).1 = some (chosen, T) ∧
      x = (chosen.foldl (mutate demo_extern)
        (demo_ready._scale demo_ready._best_x, T)).1 ∧
      (∀ j, j ∉ chosen → x[j]? = (demo_ready._scale demo_ready._best_x)[j]?) ∧
      S'._dbx = demo_ready._dbx ++ [x] :=
  match candidate_keeps_unchosen demo_extern demo_ready _
      (Option.some_get demo_step_isSome).symm with
  | ⟨_, S2, T, chosen, x, Or.inl ⟨_, rfl⟩, harch, hpick, _, hx, _, hkeep, hdbx, _, _⟩ =>
    ⟨_, S2, T, chosen, x, (Option.some_get demo_step_isSome).symm, harch, hpick, hx, hkeep, hdbx⟩
  | ⟨_, _, _, _, _, Or.inr ⟨htop, _⟩, _⟩ => absurd htop (by decide!)

/-! ## The statistics of a dimension after the archive step -/

theorem sameAt_lengths {i : ℕ} {S U : MVMO K} (h : SameAt i S U)
    (h1 : i < S._archive_mean.length) (h2 : i < S._archive_s.length)
    (h3 : i < S._archive_d.length) (h4 : i < S._archive_s1.length)
    (h5 : i < S._archive_s2.length) :
    i < U._archive_mean.length ∧ i < U._archive_s.length ∧ i < U._archive_d.length ∧
      i < U._archive_s1.length ∧ i < U._archive_s2.length :=
  ⟨by rw [h.len_mean]; exact h1, by rw [h.len_s]; exact h2, by rw [h.len_d]; exact h3,
    by rw [h.len_s1]; exact h4, by rw [h.len_s2]; exact h5⟩

theorem getD_congr (l l' : List K) (i : ℕ) (h : l'[i]? = l[i]?) : l'.getD i 0 = l.getD i 0 := by
  rw [List.getD_eq_getElem?_getD, List.getD_eq_getElem?_getD, h]

theorem shape_value_congr (O : Extern K) (fs : K) (S U : MVMO K) (i : ℕ) (mv : K × K)
    (h : SameAt i S U) : shape_value O fs U i mv = shape_value O fs S i mv := by
  unfold shape_value
  rw [getD_congr _ _ i h.s]

/-- The statistics that `_archive` stores for dimension `i`, read off a state
`U` that has the statistics, the best value and the jitter constant of `S`. -/
theorem archive_entry (O : Extern K) (S T : MVMO K) (hT : _archive O S = some T) (i : ℕ)
    (hi : i < S._dim)
    (h1 : i < S._archive_mean.length) (h2 : i < S._archive_s.length)
    (h3 : i < S._archive_d.length) (h4 : i < S._archive_s1.length)
    (h5 : i < S._archive_s2.length) :
    ∃ (U : MVMO K) (mv : K × K), SameAt i S U ∧
      _mean_var_noeq ((archive_copy O S)._archive_x.map (fun col => col.getD i 0)) = some mv ∧
      T._archive_mean[i]? = some mv.1 ∧
      T._archive_s[i]? = some (shape_value O (_fs O (archive_copy O S))._fshape S i mv) ∧
      T._archive_d[i]? =
        some (if shape_value O (_fs O (archive_copy O S))._fshape S i mv > 0 then
          range_value O U i (shape_value O (_fs O (archive_copy O S))._fshape S i mv)
          else S._archive_d.getD i 0) ∧
      T._archive_s1[i]? =
        some (if S._best_y ≠ ⊤ then
          (if shape_value O (_fs O (archive_copy O S))._fshape S i mv > 0 then
            (if O.rand01 (U.rng + 1) < (0.5 : K) then
              shape_value O (_fs O (archive_copy O S))._fshape S i mv
              else range_value O U i (shape_value O (_fs O (archive_copy O S))._fshape S i mv))
            else shape_value O (_fs O (archive_copy O S))._fshape S i mv)
          else 0) ∧
      T._archive_s2[i]? =
        some (if S._best_y ≠ ⊤ then
          (if shape_value O (_fs O (archive_copy O S))._fshape S i mv > 0 then
            (if O.rand01 (U.rng + 1) < (0.5 : K) then
              range_value O U i (shape_value O (_fs O (archive_copy O S))._fshape S i mv)
              else shape_value O (_fs O (archive_copy O S))._fshape S i mv)
            else shape_value O (_fs O (archive_copy O S))._fshape S i mv)
          else 0) := by
  obtain ⟨U, mv, hU, hmv, hUT⟩ := archive_at O S T hT i hi
  obtain ⟨u1, u2, u3, u4, u5⟩ := sameAt_lengths hU h1 h2 h3 h4 h5
  obtain ⟨a1, a2, a3, a4, a5⟩ :=
    archive_stat_at O (_fs O (archive_copy O S))._fshape U i mv u1 u2 u3 u4 u5
  simp only [shape_value_congr O _ S U i mv hU, hU.best_y, getD_congr _ _ i hU.d] at a2 a3 a4 a5
  exact ⟨U, mv, hU, hmv, hUT.mean.trans a1, hUT.s.trans a2, hUT.d.trans a3, hUT.s1.trans a4,
    hUT.s2.trans a5⟩

/-- C13: in the archive step the stored mean of a dimension is the newly
computed mean, and its shape value is kept when the variance is below machine
epsilon and is `-ln(variance) * fitness_shaping_factor` otherwise. -/
theorem shape_value_kept_or_recomputed (O : Extern K) (S T : MVMO K)
    (hT : _archive O S = some T) (i : ℕ) (hi : i < S._dim)
    (h1 : S._archive_mean.length = S._dim) (h2 : S._archive_s.length = S._dim)
    (h3 : S._archive_d.length = S._dim) (h4 : S._archive_s1.length = S._dim)
    (h5 : S._archive_s2.length = S._dim) :
    ∃ mean var : K,
      _mean_var_noeq ((archive_copy O S)._archive_x.map (fun col => col.getD i 0)) =
        some (mean, var) ∧
      T._archive_mean[i]? = some mean ∧
      (var < epsilon → T._archive_s[i]? = S._archive_s[i]?) ∧
      (¬ var < epsilon →
        T._archive_s[i]? = some (-1 * O.log var * (_fs O (archive_copy O S))._fshape)) := by
  obtain ⟨U, mv, _, hmv, e1, e2, _⟩ := archive_entry O S T hT i hi (by omega) (by omega)
    (by omega) (by omega) (by omega)
  refine ⟨mv.1, mv.2, hmv, e1, ?_, ?_⟩
  · intro hvar
    rw [e2, getElem?_eq_some_getD _ _ (by omega : i < S._archive_s.length)]
    unfold shape_value
    rw [if_pos hvar]
  · intro hvar
    rw [e2]
    unfold shape_value
    rw [if_neg hvar]

theorem shape_value_kept_or_recomputed_witness :
    ∃ T, _archive demo_extern demo_ready = some T ∧
      ∃ mean var : ℚ,
        _mean_var_noeq ((archive_copy demo_extern demo_ready)._archive_x.map
          (fun col => col.getD 0 0)) = some (mean, var) ∧
        T._archive_mean[0]? = some mean ∧
        (¬ var < epsilon → T._archive_s[0]? =
          some (-1 * demo_extern.log var *
            (_fs demo_extern (archive_copy demo_extern demo_ready))._fshape)) := by
  have hT : (_archive demo_extern demo_ready).isSome = true := by decide!
  obtain ⟨mean, var, h1, h2, _, h4⟩ := shape_value_kept_or_recomputed demo_extern demo_ready _
    (Option.some_get hT).symm 0 (by decide!) (by decide!) (by decide!) (by decide!)
    (by decide!) (by decide!)
  exact ⟨_, (Option.some_get hT).symm, mean, var, h1, h2, h4⟩

/-- C12 fails as stated: after an initial batch of equal points the variance
of each dimension is zero, the shape value keeps its initial value 0, and
with a finite best value both shaping values are 0 while the dynamic-range
value is 1. -/
theorem shaping_values_equal_shape :
    flat_ready._best_y ≠ ⊤ ∧
    (_archive flat_extern flat_ready).map
      (fun T => (T._archive_s[0]?, T._archive_d[0]?, T._archive_s1[0]?, T._archive_s2[0]?)) =
      some (some 0, some 1, some 0, some 0) := by
  decide!

/-- C12, as the code has it: with a finite best value the two shaping values
of a dimension are its shape value and its dynamic-range value in one of the
two orders when the shape value is positive, and both equal the shape value
when it is not; without a finite best value both are 0. -/
theorem shaping_values_assigned (O : Extern K) (S T : MVMO K)
    (hT : _archive O S = some T) (i : ℕ) (hi : i < S._dim)
    (h1 : S._archive_mean.length = S._dim) (h2 : S._archive_s.length = S._dim)
    (h3 : S._archive_d.length = S._dim) (h4 : S._archive_s1.length = S._dim)
    (h5 : S._archive_s2.length = S._dim) :
    ∃ s d : K, T._archive_s[i]? = some s ∧ T._archive_d[i]? = some d ∧
      (S._best_y ≠ ⊤ → 0 < s →
        (T._archive_s1[i]? = some s ∧ T._archive_s2[i]? = some d) ∨
        (T._archive_s1[i]? = some d ∧ T._archive_s2[i]? = some s)) ∧
      (S._best_y ≠ ⊤ → s ≤ 0 → T._archive_s1[i]? = some s ∧ T._archive_s2[i]? = some s) ∧
      (S._best_y = ⊤ → T._archive_s1[i]? = some 0 ∧ T._archive_s2[i]? = some 0) := by
  obtain ⟨U, mv, _, _, _, e2, e3, e4, e5⟩ := archive_entry O S T hT i hi (by omega) (by omega)
    (by omega) (by omega) (by omega)
  refine ⟨_, _, e2, e3, ?_, ?_, ?_⟩
  · intro hy hs
    have hs' : shape_value O (_fs O (archive_copy O S))._fshape S i mv > 0 := hs
    rw [e4, e5]
    simp only [if_pos hy, if_pos hs']
    by_cases hu : O.rand01 (U.rng + 1) < (0.5 : K)
    · left
      simp only [if_pos hu, and_self]
    · right
      simp only [if_neg hu, and_self]
  · intro hy hs
    have hs' : ¬ shape_value O (_fs O (archive_copy O S))._fshape S i mv > 0 := not_lt.mpr hs
    rw [e4, e5]
    simp only [if_pos hy, if_neg hs', and_self]
  · intro hy
    rw [e4, e5]
    simp only [hy, ne_eq, not_true_eq_false, if_false, and_self]

theorem shaping_values_assigned_witness :
    ∃ T, _archive demo_extern demo_ready = some T ∧
      ∃ s d : ℚ, T._archive_s[0]? = some s ∧ T._archive_d[0]? = some d ∧
        (demo_ready._best_y ≠ ⊤ → 0 < s →
          (T._archive_s1[0]? = some s ∧ T._archive_s2[0]? = some d) ∨
          (T._archive_s1[0]? = some d ∧ T._archive_s2[0]? = some s)) := by
  have hT : (_archive demo_extern demo_ready).isSome = true := by decide!
  obtain ⟨s, d, h1, h2, h3, _⟩ := shaping_values_assigned demo_extern demo_ready _
    (Option.some_get hT).symm 0 (by decide!) (by decide!) (by decide!) (by decide!)
    (by decide!) (by decide!)
  exact ⟨_, (Option.some_get hT).symm, s, d, h1, h2, h3⟩

/-! ## The signs of the statistics -/

theorem epsilon_pos : (0 : K) < epsilon := by
  unfold epsilon
  positivity

theorem jitter_ge_one (O : Extern K) (hrand : Rand01Spec O) (U : MVMO K)
    (hdelta : 0 ≤ U._delta_d0) : 1 ≤ jitter O U := by
  unfold jitter
  have h := (hrand U.rng).1
  have e : (1 + U._delta_d0) + 2 * U._delta_d0 * (O.rand01 U.rng - 0.5) =
      1 + 2 * (U._delta_d0 * O.rand01 U.rng) := by
    norm_num
    ring
  rw [e]
  have := mul_nonneg hdelta h
  linarith

theorem mean_var_noeq_unit (xs : List K) (mv : K × K) (h : _mean_var_noeq xs = some mv)
    (h01 : ∀ x ∈ xs, 0 ≤ x ∧ x ≤ 1) : 0 ≤ mv.2 ∧ mv.2 ≤ 1 / 4 := by
  have hne : xs ≠ [] := by
    intro hnil
    rw [hnil] at h
    simp [_mean_var_noeq] at h
  obtain ⟨v0, kept, _, hkept, hmem, hres⟩ := mean_var_noeq_cases xs hne
  rcases hres with hres | hres
  · rw [hres] at h
    simp only [Option.some.injEq] at h
    rw [← h]
    norm_num
  · rw [hres] at h
    simp only [Option.some.injEq] at h
    rw [← h]
    exact ⟨mean_sq_nonneg kept _, pop_var_le_quarter kept hkept (fun x hx => h01 x (hmem x hx))⟩

theorem getD_mem_or_zero (l : List K) (i : ℕ) : l.getD i 0 ∈ l ∨ l.getD i 0 = 0 := by
  rcases Nat.lt_or_ge i l.length with h | h
  · left
    rw [List.getD_eq_getElem?_getD, List.getElem?_eq_getElem h]
    exact List.getElem_mem h
  · right
    rw [List.getD_eq_getElem?_getD, List.getElem?_eq_none h]
    rfl

theorem getD_mem (l : List K) (i : ℕ) (h : i < l.length) : l.getD i 0 ∈ l := by
  rw [List.getD_eq_getElem?_getD, List.getElem?_eq_getElem h]
  exact List.getElem_mem h

/-- C19: the archive step keeps the signs of the statistics. When the shape
values are not negative and the dynamic-range values are positive before the
step, the archive values lie in `[0, 1]`, the fitness-shaping factor is
positive and `delta_d0` is not negative, then after the step every dimension
has a shape value and two shaping values that are not negative and a positive
dynamic-range value; the jitter is at least 1 and every variance is at most
`1/4`. Of `log` the proof uses that it is not positive on `(0, 1]`. -/
theorem archive_keeps_signs (O : Extern K) (hrand : Rand01Spec O)
    (hlog : ∀ x : K, 0 < x → x ≤ 1 → O.log x ≤ 0) (S T : MVMO K)
    (hT : _archive O S = some T)
    (h1 : S._archive_mean.length = S._dim) (h2 : S._archive_s.length = S._dim)
    (h3 : S._archive_d.length = S._dim) (h4 : S._archive_s1.length = S._dim)
    (h5 : S._archive_s2.length = S._dim)
    (hs : ∀ v ∈ S._archive_s, 0 ≤ v) (hd : ∀ v ∈ S._archive_d, 0 < v)
    (hx : ∀ col ∈ (archive_copy O S)._archive_x, ∀ v ∈ col, 0 ≤ v ∧ v ≤ 1)
    (hfs : 0 < (_fs O (archive_copy O S))._fshape) (hdelta : 0 ≤ S._delta_d0) :
    (∀ i, i < S._dim → ∃ s d s1 s2 : K,
      T._archive_s[i]? = some s ∧ T._archive_d[i]? = some d ∧
      T._archive_s1[i]? = some s1 ∧ T._archive_s2[i]? = some s2 ∧
      0 ≤ s ∧ 0 < d ∧ 0 ≤ s1 ∧ 0 ≤ s2) ∧
    (∀ U : MVMO K, U._delta_d0 = S._delta_d0 → 1 ≤ jitter O U) ∧
    (∀ i, i < S._dim → ∃ mean var : K,
      _mean_var_noeq ((archive_copy O S)._archive_x.map (fun col => col.getD i 0)) =
        some (mean, var) ∧ 0 ≤ var ∧ var ≤ 1 / 4) := by
  have hrow : ∀ i, ∀ x ∈ (archive_copy O S)._archive_x.map (fun col => col.getD i 0),
      0 ≤ x ∧ x ≤ 1 := by
    intro i x hx'
    obtain ⟨col, hcol, rfl⟩ := List.mem_map.mp hx'
    rcases getD_mem_or_zero col i with h | h
    · exact hx col hcol _ h
    · rw [h]
      exact ⟨le_refl _, zero_le_one⟩
  have hjit : ∀ U : MVMO K, U._delta_d0 = S._delta_d0 → 1 ≤ jitter O U := by
    intro U hU
    exact jitter_ge_one O hrand U (by rw [hU]; exact hdelta)
  refine ⟨?_, hjit, ?_⟩
  · intro i hi
    obtain ⟨U, mv, hU, hmv, _, e2, e3, e4, e5⟩ := archive_entry O S T hT i hi (by omega)
      (by omega) (by omega) (by omega) (by omega)
    obtain ⟨hv0, hv1⟩ := mean_var_noeq_unit _ mv hmv (hrow i)
    have hs0 : 0 ≤ shape_value O (_fs O (archive_copy O S))._fshape S i mv := by
      unfold shape_value
      split_ifs with hvar
      · exact hs _ (getD_mem _ _ (by omega))
      · have hpos : 0 < mv.2 := lt_of_lt_of_le epsilon_pos (not_lt.mp hvar)
        have := hlog mv.2 hpos (by linarith)
        have e : -1 * O.log mv.2 * (_fs O (archive_copy O S))._fshape =
            (-O.log mv.2) * (_fs O (archive_copy O S))._fshape := by ring
        rw [e]
        exact mul_nonneg (by linarith) hfs.le
    have hd0 : 0 < S._archive_d.getD i 0 := hd _ (getD_mem _ _ (by omega))
    have hj := hjit U hU.delta_d0
    have hr : ∀ s : K, 0 < range_value O U i s := by
      intro s
      unfold range_value
      rw [getD_congr _ _ i hU.d]
      split_ifs
      · exact mul_pos hd0 (by linarith)
      · exact div_pos hd0 (by linarith)
    refine ⟨_, _, _, _, e2, e3, e4, e5, hs0, ?_, ?_, ?_⟩
    · split_ifs
      · exact hr _
      · exact hd0
    · split_ifs
      · exact hs0
      · exact (hr _).le
      · exact hs0
      · exact le_refl _
    · split_ifs
      · exact (hr _).le
      · exact hs0
      · exact hs0
      · exact le_refl _
  · intro i hi
    obtain ⟨U, mv, _, hmv, _⟩ := archive_entry O S T hT i hi (by omega)
      (by omega) (by omega) (by omega) (by omega)
    exact ⟨mv.1, mv.2, hmv, mean_var_noeq_unit _ mv hmv (hrow i)⟩

theorem demo_log_spec : ∀ x : ℚ, 0 < x → x ≤ 1 → demo_extern.log x ≤ 0 := by
  intro x _ hx
  show x - 1 ≤ 0
  linarith

theorem archive_keeps_signs_witness :
    ∃ T, _archive demo_extern demo_ready = some T ∧
      ∃ s d s1 s2 : ℚ,
        T._archive_s[0]? = some s ∧ T._archive_d[0]? = some d ∧
        T._archive_s1[0]? = some s1 ∧ T._archive_s2[0]? = some s2 ∧
        0 ≤ s ∧ 0 < d ∧ 0 ≤ s1 ∧ 0 ≤ s2 := by
  have hT : (_archive demo_extern demo_ready).isSome = true := by decide!
  exact ⟨_, (Option.some_get hT).symm,
    (archive_keeps_signs demo_extern demo_rand01_spec demo_log_spec demo_ready _
      (Option.some_get hT).symm (by decide!) (by decide!) (by decide!) (by decide!)
      (by decide!) (by decide!) (by decide!) (by decide!) (by decide!) (by decide!)).1 0
      (by decide!)⟩

theorem mapped_identity_without_shaping_witness :
    ( _init_archive demo_fresh)._best_y = ⊤ ∧
    (archive_stat demo_extern 1 (_init_archive demo_fresh) 0 (1 / 2, 0))._archive_s1[0]? = some 0 ∧
    (archive_stat demo_extern 1 (_init_archive demo_fresh) 0 (1 / 2, 0))._archive_s2[0]? = some 0 :=
  ⟨rfl, (mapped_identity_without_shaping demo_extern).2 1 (_init_archive demo_fresh) 0 (1 / 2, 0)
    rfl (by decide) (by decide)⟩

end MVMO
